import Mathlib

/-!
Verification of the bencode codec and torrent-client core of the
codecrafters-bittorrent-rust repository.

The Rust sources are shallowly embedded: byte slices become lists of natural
numbers below 256, Rust machine integers become Nat or Int with explicit range
checks where the source checks them, and fallible Rust functions returning
anyhow Result become Except or Option valued functions.  Rust operations that
can panic (out-of-bounds slicing) are modelled with an explicit panic outcome.
-/

namespace BitTorrent

/-! ## Bencode values (src/bencode/bvalue.rs)

The Rust BValue enum has four variants: Integer(i64), String(Vec of u8),
List(Vec of BValue) and Dict(BTreeMap of String to BValue).  Byte strings are
lists of naturals; the BTreeMap is modelled as an association list kept
strictly sorted by the lexicographic byte order of the UTF-8 keys, which is
exactly the iteration order of a Rust BTreeMap keyed by String. -/

inductive BValue where
  | int (n : Int)
  | str (s : List Nat)
  | list (xs : List BValue)
  | dict (entries : List (List Nat × BValue))
  deriving Repr

/-- Lexicographic strict order on byte strings, as used by Ord for Rust String
(byte-wise comparison, a strict prefix is smaller). -/
def lexLt : List Nat → List Nat → Bool
  | [], [] => false
  | [], _ :: _ => true
  | _ :: _, [] => false
  | a :: as, b :: bs => if a < b then true else if b < a then false else lexLt as bs

/-- BTreeMap::insert on the sorted association list: keeps entries strictly
sorted by key and replaces the value when the key is already present. -/
def btreeInsert (k : List Nat) (v : BValue) : List (List Nat × BValue) → List (List Nat × BValue)
  | [] => [(k, v)]
  | (k', v') :: rest =>
    if lexLt k k' then (k, v) :: (k', v') :: rest
    else if k = k' then (k, v) :: rest
    else (k', v') :: btreeInsert k v rest

/-- BTreeMap::get on the sorted association list. -/
def btreeGet (k : List Nat) : List (List Nat × BValue) → Option BValue
  | [] => none
  | (k', v) :: rest => if k = k' then some v else btreeGet k rest

/-! ## UTF-8 validity (String::from_utf8 in parse_dict)

Dictionary keys are converted with String::from_utf8, which fails on invalid
UTF-8.  The validator below is the standard RFC 3629 byte classification used
by Rust's core::str::validations. -/

/-- A UTF-8 continuation byte, 0x80 to 0xBF. -/
def isCont (c : Nat) : Bool := 128 ≤ c && c ≤ 191

/-- RFC 3629 UTF-8 validity of a byte sequence. -/
def validUtf8 : List Nat → Bool
  | [] => true
  | b :: rest =>
    if b ≤ 127 then validUtf8 rest
    else if b < 194 then false
    else if b ≤ 223 then
      match rest with
      | c1 :: r => isCont c1 && validUtf8 r
      | [] => false
    else if b ≤ 239 then
      match rest with
      | c1 :: c2 :: r =>
        (if b = 224 then 160 ≤ c1 && c1 ≤ 191
         else if b = 237 then 128 ≤ c1 && c1 ≤ 159
         else isCont c1) && isCont c2 && validUtf8 r
      | _ => false
    else if b ≤ 244 then
      match rest with
      | c1 :: c2 :: c3 :: r =>
        (if b = 240 then 144 ≤ c1 && c1 ≤ 191
         else if b = 244 then 128 ≤ c1 && c1 ≤ 143
         else isCont c1) && isCont c2 && isCont c3 && validUtf8 r
      | _ => false
    else false

/-! ## Decimal digit strings

Rust renders integers with to_string (no leading zeros, minus sign for
negatives) and parses them with str::parse, which accepts an optional sign,
requires at least one ASCII digit, and fails on overflow of the target type. -/

/-- Decimal digits of a natural number as ASCII bytes, no leading zeros. -/
def natDecimal (n : Nat) : List Nat :=
  if h : n < 10 then [48 + n]
  else natDecimal (n / 10) ++ [48 + n % 10]
decreasing_by exact Nat.div_lt_self (by omega) (by omega)

/-- ASCII rendering of an i64, mirroring i64::to_string. -/
def intDecimal (n : Int) : List Nat :=
  if n < 0 then 45 :: natDecimal (-n).toNat else natDecimal n.toNat

def isDigit (b : Nat) : Bool := 48 ≤ b && b ≤ 57

/-- Numeric value of an ASCII digit string (meaningful when all bytes are
digits). -/
def digitsVal (s : List Nat) : Nat := s.foldl (fun a b => 10 * a + (b - 48)) 0

/-- Parse an unsigned run of ASCII digits: at least one digit, digits only. -/
def parseDigits (s : List Nat) : Option Nat :=
  if s ≠ [] && s.all isDigit then some (digitsVal s) else none

/-- str::parse for i64: optional sign, digits, range check. -/
def i64FromStr (s : List Nat) : Option Int :=
  match s with
  | [] => none
  | c :: rest =>
    if c = 43 then
      (parseDigits rest).bind fun m => if m ≤ 2 ^ 63 - 1 then some (m : Int) else none
    else if c = 45 then
      (parseDigits rest).bind fun m => if m ≤ 2 ^ 63 then some (-(m : Int)) else none
    else
      (parseDigits s).bind fun m => if m ≤ 2 ^ 63 - 1 then some (m : Int) else none

/-- str::parse for usize (64-bit): optional plus sign, digits, range check. -/
def usizeFromStr (s : List Nat) : Option Nat :=
  match s with
  | [] => none
  | c :: _ =>
    if c = 43 then
      (parseDigits s.tail).bind fun m => if m ≤ 2 ^ 64 - 1 then some m else none
    else
      (parseDigits s).bind fun m => if m ≤ 2 ^ 64 - 1 then some m else none

/-! ## Encoder (src/bencode/encoder.rs, encode_value)

Integers are emitted as i, decimal digits, e; byte strings as decimal length,
colon, raw bytes; lists as l, elements in order, e; dictionaries as d, entries
in BTreeMap iteration order (ascending key), e.  The byte-level entry point
encode_bvalue_to_bytes is declared in bvalue.rs but its body is not under
src; the element-wise logic below follows encode_value with byte strings kept
as raw bytes, per the spec's encoder contract. -/

mutual

def encodeValue : BValue → List Nat
  | .int n => 105 :: intDecimal n ++ [101]
  | .str s => natDecimal s.length ++ 58 :: s
  | .list xs => 108 :: encodeItems xs ++ [101]
  | .dict entries => 100 :: encodeEntries entries ++ [101]

def encodeItems : List BValue → List Nat
  | [] => []
  | v :: vs => encodeValue v ++ encodeItems vs

def encodeEntries : List (List Nat × BValue) → List Nat
  | [] => []
  | (k, v) :: rest => (natDecimal k.length ++ 58 :: k) ++ encodeValue v ++ encodeEntries rest

end

/-! ## Decoder (src/bencode/decoder.rs)

The streaming decoder is embedded as a function from the remaining input to
either an error or the parsed value together with the unconsumed tail.  The
Rust recursion terminates because every step consumes input; here the mutual
recursion is made structural with a fuel argument, and the top-level entry
point supplies fuel that is provably sufficient. -/

inductive PErr where
  /-- Unexpected end of input / unexpected end of string. -/
  | eof
  /-- Failed integer or length parse (parse::<i64> or parse::<usize>). -/
  | badNum
  /-- Unterminated list. -/
  | untermList
  /-- Unterminated dictionary. -/
  | untermDict
  /-- Dictionary key must be a string, or invalid UTF-8 in the key. -/
  | badKey
  /-- Unhandled encoded value prefix byte. -/
  | unhandled (b : Nat)
  /-- Fuel exhausted; never reached from the top-level entry point on inputs
  settled in this development. -/
  | fuel
  deriving Repr, DecidableEq

/-- consume_until: scan for the delimiter, return the bytes before it and the
input after it, or fail at end of input. -/
def splitUntil (delim : Nat) : List Nat → Option (List Nat × List Nat)
  | [] => none
  | b :: rest =>
    if b = delim then some ([], rest)
    else (splitUntil delim rest).map fun p => (b :: p.1, p.2)

/-- parse_integer: after the leading i, take bytes up to the first e and run
the i64 string parse on them. -/
def parseInteger (input : List Nat) : Except PErr (Int × List Nat) :=
  match splitUntil 101 (input.drop 1) with
  | none => .error .eof
  | some (numBytes, rest) =>
    match i64FromStr numBytes with
    | some n => .ok (n, rest)
    | none => .error .badNum

/-- parse_string: decimal length up to the colon, then that many raw bytes. -/
def parseStr (input : List Nat) : Except PErr (List Nat × List Nat) :=
  match splitUntil 58 input with
  | none => .error .eof
  | some (lenBytes, rest) =>
    match usizeFromStr lenBytes with
    | none => .error .badNum
    | some len =>
      if rest.length < len then .error .eof
      else .ok (rest.take len, rest.drop len)

mutual

/-- parse_value: dispatch on the first byte. -/
def parseValue : Nat → List Nat → Except PErr (BValue × List Nat)
  | 0, _ => .error .fuel
  | fuel + 1, input =>
    match input with
    | [] => .error .eof
    | b :: _ =>
      if b = 105 then
        match parseInteger input with
        | .ok (n, rest) => .ok (.int n, rest)
        | .error e => .error e
      else if b = 108 then parseListLoop fuel (input.drop 1) []
      else if b = 100 then parseDictLoop fuel (input.drop 1) []
      else if isDigit b then
        match parseStr input with
        | .ok (s, rest) => .ok (.str s, rest)
        | .error e => .error e
      else .error (.unhandled b)

/-- parse_list: elements until the closing e, accumulated in order. -/
def parseListLoop : Nat → List Nat → List BValue → Except PErr (BValue × List Nat)
  | 0, _, _ => .error .fuel
  | fuel + 1, input, acc =>
    match input with
    | [] => .error .untermList
    | b :: rest =>
      if b = 101 then .ok (.list acc.reverse, rest)
      else
        match parseValue fuel input with
        | .ok (v, rest') => parseListLoop fuel rest' (v :: acc)
        | .error e => .error e

/-- parse_dict: string key (validated as UTF-8) then value, inserted into the
map; any nested parse error is reported as an unterminated dictionary, and a
non-string key or invalid UTF-8 key is its own error. -/
def parseDictLoop : Nat → List Nat → List (List Nat × BValue) →
    Except PErr (BValue × List Nat)
  | 0, _, _ => .error .fuel
  | fuel + 1, input, acc =>
    match input with
    | [] => .error .untermDict
    | b :: rest =>
      if b = 101 then .ok (.dict acc, rest)
      else
        match parseValue fuel input with
        | .error _ => .error .untermDict
        | .ok (.str k, rest1) =>
          if validUtf8 k then
            match parseValue fuel rest1 with
            | .error _ => .error .untermDict
            | .ok (v, rest2) => parseDictLoop fuel rest2 (btreeInsert k v acc)
          else .error .badKey
        | .ok _ => .error .badKey

end

/-- Decoder::parse / Bencode::decode: parse one value from the front of the
input and return it, ignoring any unconsumed tail (the source performs no
end-of-input check).  The fuel 3 * length + 4 is sufficient for every input
settled below. -/
def bencodeDecode (input : List Nat) : Except PErr BValue :=
  (parseValue (3 * input.length + 4) input).map Prod.fst

/-! ## Round-trip machinery

A BValue is well formed when it can actually arise from the Rust data model:
integers fit in i64, string lengths fit in usize, and dictionaries are the
sorted duplicate-free UTF-8-keyed maps produced by BTreeMap. -/

/-- Strict key order between two dictionary entries. -/
def entryLt (a b : List Nat × BValue) : Prop := lexLt a.1 b.1 = true

instance : DecidableRel entryLt := fun a b => by unfold entryLt; infer_instance

/-- Well-formedness of a BValue with respect to the Rust representation. -/
inductive Wf : BValue → Prop
  | int {n : Int} (hlo : -(2 ^ 63) ≤ n) (hhi : n < 2 ^ 63) : Wf (.int n)
  | str {s : List Nat} (hlen : s.length < 2 ^ 64) : Wf (.str s)
  | list {xs : List BValue} (h : ∀ v ∈ xs, Wf v) : Wf (.list xs)
  | dict {ps : List (List Nat × BValue)}
      (hutf : ∀ kv ∈ ps, validUtf8 kv.1 = true)
      (hklen : ∀ kv ∈ ps, kv.1.length < 2 ^ 64)
      (hv : ∀ kv ∈ ps, Wf kv.2)
      (hsorted : List.Pairwise entryLt ps) : Wf (.dict ps)

/-! Fuel requirements of the decoder on canonical encodings: one unit per
parseValue entry and per loop iteration. -/

mutual

def needV : BValue → Nat
  | .int _ => 1
  | .str _ => 1
  | .list xs => 1 + needL xs
  | .dict ps => 1 + needD ps

def needL : List BValue → Nat
  | [] => 1
  | v :: vs => 1 + needV v + needL vs

def needD : List (List Nat × BValue) → Nat
  | [] => 1
  | (_, v) :: ps => 2 + needV v + needD ps

end

/-! ### Decimal digit lemmas -/

theorem digitsVal_append_single (xs : List Nat) (b : Nat) :
    digitsVal (xs ++ [b]) = 10 * digitsVal xs + (b - 48) := by
  simp [digitsVal, List.foldl_append]

theorem natDecimal_digits (n : Nat) : ∀ b ∈ natDecimal n, 48 ≤ b ∧ b ≤ 57 := by
  induction n using Nat.strong_induction_on with
  | _ n ih =>
    rw [natDecimal]
    split
    · intro b hb
      simp at hb
      omega
    · intro b hb
      rw [List.mem_append] at hb
      rcases hb with hb | hb
      · exact ih (n / 10) (Nat.div_lt_self (by omega) (by omega)) b hb
      · simp at hb
        have : n % 10 < 10 := Nat.mod_lt _ (by omega)
        omega

theorem natDecimal_ne_nil (n : Nat) : natDecimal n ≠ [] := by
  rw [natDecimal]
  split
  · simp
  · simp

theorem digitsVal_natDecimal (n : Nat) : digitsVal (natDecimal n) = n := by
  induction n using Nat.strong_induction_on with
  | _ n ih =>
    rw [natDecimal]
    split
    · simp [digitsVal]
    · rw [digitsVal_append_single, ih (n / 10) (Nat.div_lt_self (by omega) (by omega))]
      omega

theorem parseDigits_natDecimal (n : Nat) : parseDigits (natDecimal n) = some n := by
  have hd := natDecimal_digits n
  have hne := natDecimal_ne_nil n
  unfold parseDigits
  have hall : (natDecimal n).all isDigit = true := by
    rw [List.all_eq_true]
    intro b hb
    have := hd b hb
    simp [isDigit]
    omega
  simp [hne, hall, digitsVal_natDecimal]

/-- First byte of a natural's decimal rendering, used for decoder dispatch. -/
theorem natDecimal_head_digit (n : Nat) :
    ∃ b t, natDecimal n = b :: t ∧ 48 ≤ b ∧ b ≤ 57 := by
  rcases h : natDecimal n with _ | ⟨b, t⟩
  · exact absurd h (natDecimal_ne_nil n)
  · have := natDecimal_digits n b (by rw [h]; exact List.mem_cons_self _ _)
    exact ⟨b, t, rfl, this.1, this.2⟩

theorem usizeFromStr_natDecimal (n : Nat) (h : n < 2 ^ 64) :
    usizeFromStr (natDecimal n) = some n := by
  obtain ⟨b, t, heq, hlo, hhi⟩ := natDecimal_head_digit n
  rw [heq]
  unfold usizeFromStr
  have hb43 : b ≠ 43 := by omega
  simp only [hb43, if_false]
  rw [← heq, parseDigits_natDecimal]
  simp
  omega

theorem i64FromStr_intDecimal (n : Int) (hlo : -(2 ^ 63) ≤ n) (hhi : n < 2 ^ 63) :
    i64FromStr (intDecimal n) = some n := by
  unfold intDecimal
  split
  · next hneg =>
    have h1 : (-n).toNat ≤ 2 ^ 63 := by omega
    unfold i64FromStr
    simp only [if_false, parseDigits_natDecimal]
    simp [h1]
    omega
  · next hpos =>
    obtain ⟨b, t, heq, hblo, hbhi⟩ := natDecimal_head_digit n.toNat
    rw [heq]
    unfold i64FromStr
    have hb43 : b ≠ 43 := by omega
    have hb45 : b ≠ 45 := by omega
    simp only [hb43, hb45, if_false]
    rw [← heq, parseDigits_natDecimal]
    have h1 : n.toNat ≤ 2 ^ 63 - 1 := by omega
    simp [h1]
    omega

theorem splitUntil_append (delim : Nat) (xs rest : List Nat) (h : delim ∉ xs) :
    splitUntil delim (xs ++ delim :: rest) = some (xs, rest) := by
  induction xs with
  | nil => simp [splitUntil]
  | cons a as ih =>
    have ha : a ≠ delim := fun hc => h (hc ▸ List.mem_cons_self a as)
    have ih' := ih (fun hc => h (List.mem_cons_of_mem a hc))
    simp only [List.cons_append, splitUntil, ha, if_false, List.append_eq]
    rw [ih']
    rfl

/-! ### Order lemmas for the sorted map -/

theorem lexLt_irrefl (a : List Nat) : lexLt a a = false := by
  induction a with
  | nil => rfl
  | cons x xs ih => simp [lexLt, ih]

theorem lexLt_asymm : ∀ {a b : List Nat}, lexLt a b = true → lexLt b a = false
  | [], [], h => by simp [lexLt] at h
  | [], _ :: _, _ => rfl
  | _ :: _, [], h => by simp [lexLt] at h
  | x :: xs, y :: ys, h => by
    by_cases hxy : x < y
    · simp [lexLt, hxy, Nat.lt_asymm hxy, Nat.ne_of_lt hxy]
      try omega
    · by_cases hyx : y < x
      · simp [lexLt, hxy, hyx] at h
      · have hxy' : x = y := by omega
        subst hxy'
        simp [lexLt, hxy] at h ⊢
        exact lexLt_asymm h

theorem lexLt_ne {a b : List Nat} (h : lexLt a b = true) : a ≠ b := by
  intro hc
  subst hc
  rw [lexLt_irrefl] at h
  exact Bool.noConfusion h

/-- Inserting a key larger than every key present appends at the end. -/
theorem btreeInsert_append (k : List Nat) (v : BValue) :
    ∀ m : List (List Nat × BValue), (∀ kv ∈ m, lexLt kv.1 k = true) →
      btreeInsert k v m = m ++ [(k, v)]
  | [], _ => rfl
  | (k', v') :: rest, h => by
    have hk' : lexLt k' k = true := h (k', v') (List.mem_cons_self _ _)
    have h1 : lexLt k k' = false := lexLt_asymm hk'
    have h2 : k ≠ k' := fun hc => lexLt_ne hk' hc.symm
    simp only [btreeInsert, h1, h2, if_false, Bool.false_eq_true]
    rw [btreeInsert_append k v rest (fun kv hkv => h kv (List.mem_cons_of_mem _ hkv))]
    rfl

/-- Folding btreeInsert over entries already sorted above the accumulator
rebuilds the entries unchanged: a BTreeMap built from strictly ascending
inserts is that sorted list. -/
theorem foldl_btreeInsert_sorted :
    ∀ (ps acc : List (List Nat × BValue)), List.Pairwise entryLt (acc ++ ps) →
      ps.foldl (fun m kv => btreeInsert kv.1 kv.2 m) acc = acc ++ ps
  | [], acc, _ => by simp
  | (k, v) :: ps', acc, h => by
    have hacc : ∀ kv ∈ acc, lexLt kv.1 k = true := by
      intro kv hkv
      have := (List.pairwise_append.mp h).2.2 kv hkv (k, v) (List.mem_cons_self _ _)
      exact this
    have hstep : btreeInsert k v acc = acc ++ [(k, v)] := btreeInsert_append k v acc hacc
    have hassoc : (acc ++ [(k, v)]) ++ ps' = acc ++ (k, v) :: ps' := by simp
    have hrec := foldl_btreeInsert_sorted ps' (acc ++ [(k, v)]) (by rw [hassoc]; exact h)
    simp only [List.foldl_cons, hstep, hrec, hassoc]

/-! ### Parsing canonical encodings -/

theorem intDecimal_mem (n : Int) : ∀ b ∈ intDecimal n, b = 45 ∨ (48 ≤ b ∧ b ≤ 57) := by
  unfold intDecimal
  split
  · intro b hb
    rcases List.mem_cons.mp hb with h45 | hb'
    · left; exact h45
    · right; exact natDecimal_digits _ b hb'
  · intro b hb
    right; exact natDecimal_digits _ b hb

/-- Parsing the canonical encoding of a byte string (used both for string
values and for dictionary keys). -/
theorem parseValue_str (s : List Nat) (hlen : s.length < 2 ^ 64) (fuel : Nat)
    (hf : 1 ≤ fuel) (rest : List Nat) :
    parseValue fuel (natDecimal s.length ++ 58 :: (s ++ rest)) = .ok (.str s, rest) := by
  obtain ⟨f, rfl⟩ : ∃ f, fuel = f + 1 := ⟨fuel - 1, by omega⟩
  obtain ⟨b, t, heq, hlo, hhi⟩ := natDecimal_head_digit s.length
  have hsplit : splitUntil 58 (natDecimal s.length ++ 58 :: (s ++ rest)) =
      some (natDecimal s.length, s ++ rest) := by
    apply splitUntil_append
    intro hc
    have := natDecimal_digits s.length 58 hc
    omega
  have hstr : parseStr (natDecimal s.length ++ 58 :: (s ++ rest)) = .ok (s, rest) := by
    unfold parseStr
    simp only [hsplit, usizeFromStr_natDecimal s.length hlen]
    have hnot : ¬ (s ++ rest).length < s.length := by simp
    simp only [hnot, if_false]
    rw [List.take_left, List.drop_left]
  rw [heq]
  show parseValue (f + 1) (b :: (t ++ 58 :: (s ++ rest))) = _
  unfold parseValue
  have hb105 : b ≠ 105 := by omega
  have hb108 : b ≠ 108 := by omega
  have hb100 : b ≠ 100 := by omega
  have hbd : isDigit b = true := by simp [isDigit]; omega
  simp only [hb105, hb108, hb100, hbd, if_false, if_true]
  rw [show b :: (t ++ 58 :: (s ++ rest)) = natDecimal s.length ++ 58 :: (s ++ rest) by
    rw [heq]; rfl]
  rw [hstr]

/-- Parsing the canonical encoding of an integer in i64 range. -/
theorem parseValue_int (n : Int) (hlo : -(2 ^ 63) ≤ n) (hhi : n < 2 ^ 63) (fuel : Nat)
    (hf : 1 ≤ fuel) (rest : List Nat) :
    parseValue fuel (105 :: (intDecimal n ++ 101 :: rest)) = .ok (.int n, rest) := by
  obtain ⟨f, rfl⟩ : ∃ f, fuel = f + 1 := ⟨fuel - 1, by omega⟩
  have hsplit : splitUntil 101 (intDecimal n ++ 101 :: rest) = some (intDecimal n, rest) := by
    apply splitUntil_append
    intro hc
    rcases intDecimal_mem n 101 hc with h | h <;> omega
  have hint : parseInteger (105 :: (intDecimal n ++ 101 :: rest)) = .ok (n, rest) := by
    unfold parseInteger
    simp only [List.drop_succ_cons, List.drop_zero, hsplit,
      i64FromStr_intDecimal n hlo hhi]
  unfold parseValue
  simp only [if_true, hint]

/-- Every canonical encoding starts with a byte other than the terminator e. -/
theorem encodeValue_head (v : BValue) : ∃ b t, encodeValue v = b :: t ∧ b ≠ 101 := by
  cases v with
  | int n => exact ⟨105, _, rfl, by omega⟩
  | str s =>
    obtain ⟨b, t, heq, hlo, hhi⟩ := natDecimal_head_digit s.length
    refine ⟨b, t ++ 58 :: s, ?_, by omega⟩
    show natDecimal s.length ++ 58 :: s = _
    rw [heq]
    rfl
  | list xs => exact ⟨108, _, rfl, by omega⟩
  | dict ps => exact ⟨100, _, rfl, by omega⟩

mutual

/-- Decoding the canonical encoding of a well-formed value returns the value
and leaves the trailing bytes unconsumed. -/
theorem parse_encodeValue (v : BValue) (hwf : Wf v) (fuel : Nat) (rest : List Nat)
    (hfuel : needV v ≤ fuel) :
    parseValue fuel (encodeValue v ++ rest) = .ok (v, rest) := by
  cases hwf with
  | int hlo hhi =>
    rename_i n
    have h1 : 1 ≤ fuel := by simpa [needV] using hfuel
    have hshape : encodeValue (.int n) ++ rest = 105 :: (intDecimal n ++ 101 :: rest) := by
      show (105 :: (intDecimal n ++ [101])) ++ rest = _
      simp
    rw [hshape]
    exact parseValue_int n hlo hhi fuel h1 rest
  | str hlen =>
    rename_i s
    have h1 : 1 ≤ fuel := by simpa [needV] using hfuel
    have hshape : encodeValue (.str s) ++ rest = natDecimal s.length ++ 58 :: (s ++ rest) := by
      show (natDecimal s.length ++ 58 :: s) ++ rest = _
      simp
    rw [hshape]
    exact parseValue_str s hlen fuel h1 rest
  | list hxs =>
    rename_i xs
    have h1 : needL xs ≤ fuel - 1 ∧ 1 ≤ fuel := by simp [needV] at hfuel; omega
    obtain ⟨f, rfl⟩ : ∃ f, fuel = f + 1 := ⟨fuel - 1, by omega⟩
    have hshape : encodeValue (.list xs) ++ rest = 108 :: (encodeItems xs ++ 101 :: rest) := by
      show (108 :: (encodeItems xs ++ [101])) ++ rest = _
      simp
    rw [hshape]
    unfold parseValue
    simp only [if_false, if_true, List.drop_succ_cons, List.drop_zero]
    have := parse_encodeItems xs hxs f rest [] (by omega)
    simpa using this
  | dict hutf hklen hv hsorted =>
    rename_i ps
    have h1 : needD ps ≤ fuel - 1 ∧ 1 ≤ fuel := by simp [needV] at hfuel; omega
    obtain ⟨f, rfl⟩ : ∃ f, fuel = f + 1 := ⟨fuel - 1, by omega⟩
    have hshape : encodeValue (.dict ps) ++ rest = 100 :: (encodeEntries ps ++ 101 :: rest) := by
      show (100 :: (encodeEntries ps ++ [101])) ++ rest = _
      simp
    rw [hshape]
    unfold parseValue
    simp only [if_false, if_true, List.drop_succ_cons, List.drop_zero]
    have := parse_encodeEntries ps hutf hklen hv f rest [] (by omega)
    rw [this]
    rw [foldl_btreeInsert_sorted ps [] (by simpa using hsorted)]
    rfl

/-- Decoding the concatenated canonical encodings of list elements, terminated
by e, returns the elements appended to the reversed accumulator. -/
theorem parse_encodeItems (vs : List BValue) (hwf : ∀ v ∈ vs, Wf v) (fuel : Nat)
    (rest : List Nat) (acc : List BValue) (hfuel : needL vs ≤ fuel) :
    parseListLoop fuel (encodeItems vs ++ 101 :: rest) acc =
      .ok (.list (acc.reverse ++ vs), rest) := by
  obtain ⟨f, rfl⟩ : ∃ f, fuel = f + 1 := by
    cases vs <;> simp [needL] at hfuel <;> exact ⟨fuel - 1, by omega⟩
  cases vs with
  | nil =>
    show parseListLoop (f + 1) (101 :: rest) acc = _
    unfold parseListLoop
    simp
  | cons v vs' =>
    have hfv : needV v ≤ f := by simp [needL] at hfuel; omega
    have hfl : needL vs' ≤ f := by simp [needL] at hfuel; omega
    obtain ⟨b, t, hbt, hb101⟩ := encodeValue_head v
    have hshape : encodeItems (v :: vs') ++ 101 :: rest =
        b :: (t ++ (encodeItems vs' ++ 101 :: rest)) := by
      show (encodeValue v ++ encodeItems vs') ++ 101 :: rest = _
      rw [hbt]
      simp
    rw [hshape]
    unfold parseListLoop
    simp only [hb101, if_false]
    have hpv : parseValue f (b :: (t ++ (encodeItems vs' ++ 101 :: rest))) =
        .ok (v, encodeItems vs' ++ 101 :: rest) := by
      have := parse_encodeValue v (hwf v (List.mem_cons_self _ _)) f
        (encodeItems vs' ++ 101 :: rest) hfv
      rw [hbt] at this
      simpa using this
    rw [hpv]
    have := parse_encodeItems vs' (fun w hw => hwf w (List.mem_cons_of_mem _ hw)) f rest
      (v :: acc) hfl
    show parseListLoop f (encodeItems vs' ++ 101 :: rest) (v :: acc) = _
    rw [this]
    simp

/-- Decoding the concatenated canonical encodings of dictionary entries,
terminated by e, folds the entries into the accumulated map with
BTreeMap::insert semantics. -/
theorem parse_encodeEntries (ps : List (List Nat × BValue))
    (hutf : ∀ kv ∈ ps, validUtf8 kv.1 = true)
    (hklen : ∀ kv ∈ ps, kv.1.length < 2 ^ 64)
    (hv : ∀ kv ∈ ps, Wf kv.2)
    (fuel : Nat) (rest : List Nat) (acc : List (List Nat × BValue))
    (hfuel : needD ps ≤ fuel) :
    parseDictLoop fuel (encodeEntries ps ++ 101 :: rest) acc =
      .ok (.dict (ps.foldl (fun m kv => btreeInsert kv.1 kv.2 m) acc), rest) := by
  obtain ⟨f, rfl⟩ : ∃ f, fuel = f + 1 := by
    cases ps <;> simp [needD] at hfuel
    · exact ⟨fuel - 1, by omega⟩
    · exact ⟨fuel - 1, by omega⟩
  cases ps with
  | nil =>
    show parseDictLoop (f + 1) (101 :: rest) acc = _
    unfold parseDictLoop
    simp
  | cons kv ps' =>
    obtain ⟨k, v⟩ := kv
    have hfv : needV v ≤ f ∧ needD ps' ≤ f ∧ 1 ≤ f := by
      simp [needD] at hfuel
      have hv1 : 1 ≤ needV v := by cases v <;> simp [needV]
      omega
    obtain ⟨b, t, hbt, hlo, hhi⟩ := natDecimal_head_digit k.length
    have hb101 : b ≠ 101 := by omega
    have hshape : encodeEntries ((k, v) :: ps') ++ 101 :: rest =
        b :: (t ++ (58 :: (k ++ (encodeValue v ++ encodeEntries ps' ++ 101 :: rest)))) := by
      show ((natDecimal k.length ++ 58 :: k) ++ encodeValue v ++ encodeEntries ps') ++
        101 :: rest = _
      rw [hbt]
      simp
    rw [hshape]
    unfold parseDictLoop
    simp only [hb101, if_false]
    have hkey : parseValue f
        (b :: (t ++ (58 :: (k ++ (encodeValue v ++ encodeEntries ps' ++ 101 :: rest))))) =
        .ok (.str k, encodeValue v ++ encodeEntries ps' ++ 101 :: rest) := by
      have := parseValue_str k (hklen (k, v) (List.mem_cons_self _ _)) f hfv.2.2
        (encodeValue v ++ encodeEntries ps' ++ 101 :: rest)
      rw [hbt] at this
      simpa using this
    rw [hkey]
    simp only [hutf (k, v) (List.mem_cons_self _ _), if_true]
    have hval : parseValue f (encodeValue v ++ encodeEntries ps' ++ 101 :: rest) =
        .ok (v, encodeEntries ps' ++ 101 :: rest) := by
      have := parse_encodeValue v (hv (k, v) (List.mem_cons_self _ _)) f
        (encodeEntries ps' ++ 101 :: rest) hfv.1
      simpa using this
    rw [hval]
    have := parse_encodeEntries ps'
      (fun w hw => hutf w (List.mem_cons_of_mem _ hw))
      (fun w hw => hklen w (List.mem_cons_of_mem _ hw))
      (fun w hw => hv w (List.mem_cons_of_mem _ hw))
      f rest (btreeInsert k v acc) hfv.2.1
    show parseDictLoop f (encodeEntries ps' ++ 101 :: rest) (btreeInsert k v acc) = _
    rw [this]
    rfl

end

/-! ### Fuel bounds: the top-level fuel 3 * length + 4 always suffices on
canonical encodings. -/

theorem natDecimal_length_pos (n : Nat) : 1 ≤ (natDecimal n).length := by
  rcases h : natDecimal n with _ | ⟨b, t⟩
  · exact absurd h (natDecimal_ne_nil n)
  · simp

mutual

theorem needV_le (v : BValue) : needV v + 2 ≤ 3 * (encodeValue v).length := by
  cases v with
  | int n =>
    show needV (.int n) + 2 ≤ 3 * (105 :: (intDecimal n ++ [101])).length
    simp [needV]
  | str s =>
    show needV (.str s) + 2 ≤ 3 * (natDecimal s.length ++ 58 :: s).length
    have := natDecimal_length_pos s.length
    simp [needV]
    omega
  | list xs =>
    show needV (.list xs) + 2 ≤ 3 * (108 :: (encodeItems xs ++ [101])).length
    have := needL_le xs
    simp [needV]
    omega
  | dict ps =>
    show needV (.dict ps) + 2 ≤ 3 * (100 :: (encodeEntries ps ++ [101])).length
    have := needD_le ps
    simp [needV]
    omega

theorem needL_le (vs : List BValue) : needL vs ≤ 3 * (encodeItems vs).length + 1 := by
  cases vs with
  | nil => simp [needL, encodeItems]
  | cons v vs' =>
    have h1 := needV_le v
    have h2 := needL_le vs'
    show needL (v :: vs') ≤ 3 * (encodeValue v ++ encodeItems vs').length + 1
    simp [needL]
    simp at h2
    omega

theorem needD_le (ps : List (List Nat × BValue)) :
    needD ps ≤ 3 * (encodeEntries ps).length + 1 := by
  cases ps with
  | nil => simp [needD, encodeEntries]
  | cons kv ps' =>
    obtain ⟨k, v⟩ := kv
    have h1 := needV_le v
    have h2 := needD_le ps'
    have h3 := natDecimal_length_pos k.length
    show needD ((k, v) :: ps') ≤
      3 * ((natDecimal k.length ++ 58 :: k) ++ encodeValue v ++ encodeEntries ps').length + 1
    simp [needD]
    simp at h2
    omega

end

/-! ## Claim C1: bencode round-trip canonicality -/

/-- Claim C1, counterexample.  The byte sequence i-0e (a minus-zero integer
literal) is accepted by Decoder::parse, producing Integer(0), but re-encoding
Integer(0) yields i0e, not the original input.  The round-trip law as claimed
is therefore false on the code. -/
theorem C1_counterexample :
    bencodeDecode [105, 45, 48, 101] = .ok (.int 0) ∧
    encodeValue (.int 0) = [105, 48, 101] ∧
    ([105, 48, 101] : List Nat) ≠ [105, 45, 48, 101] :=
  ⟨rfl, by simp [encodeValue, intDecimal, natDecimal], by decide⟩

/-- Decoding the canonical encoding of any well-formed value recovers the
value (shared helper). -/
theorem decode_encode_of_wf (v : BValue) (hwf : Wf v) :
    bencodeDecode (encodeValue v) = .ok v := by
  unfold bencodeDecode
  have hb := needV_le v
  have := parse_encodeValue v hwf (3 * (encodeValue v).length + 4) [] (by omega)
  rw [List.append_nil] at this
  rw [this]
  rfl

/-- Claim C1, amended.  The round-trip law holds exactly on canonical
encodings: decoding the canonical encoding of any well-formed value returns
that value, so encode after decode is the identity on the encoder's image,
but not on every accepted input (accepted non-canonical spellings such as
minus-zero, leading zeros, a plus sign, or out-of-order dictionary keys are
re-encoded canonically and thus differently). -/
theorem C1_decode_encode (v : BValue) (hwf : Wf v) :
    bencodeDecode (encodeValue v) = .ok v :=
  decode_encode_of_wf v hwf

/-- Claim C1, witness: the amended round-trip evaluated on the spec's own
dictionary example d3:bar4:spam3:fooi42ee. -/
theorem C1_witness :
    bencodeDecode (encodeValue (.dict [([98, 97, 114], .str [115, 112, 97, 109]),
      ([102, 111, 111], .int 42)])) =
      .ok (.dict [([98, 97, 114], .str [115, 112, 97, 109]), ([102, 111, 111], .int 42)]) := by
  apply C1_decode_encode
  apply Wf.dict
  · intro kv h
    rcases List.mem_cons.mp h with rfl | h
    · decide
    · rcases List.mem_cons.mp h with rfl | h
      · decide
      · cases h
  · intro kv h
    rcases List.mem_cons.mp h with rfl | h
    · decide
    · rcases List.mem_cons.mp h with rfl | h
      · decide
      · cases h
  · intro kv h
    rcases List.mem_cons.mp h with rfl | h
    · exact .str (by decide)
    · rcases List.mem_cons.mp h with rfl | h
      · exact .int (by decide) (by decide)
      · cases h
  · refine List.Pairwise.cons ?_ (List.Pairwise.cons (fun x h => nomatch h) .nil)
    intro x h
    rcases List.mem_cons.mp h with rfl | h
    · decide
    · cases h

/-! ## Claim C5: trailing input at the top-level decode -/

/-- Claim C5, counterexample.  The input i42ex is a well-formed bencode value
followed by one extra byte, yet the top-level decode entry point returns
Ok(Integer(42)) rather than an error: Decoder::parse performs no end-of-input
check. -/
theorem C5_counterexample :
    bencodeDecode [105, 52, 50, 101, 120] = .ok (.int 42) := rfl

/-- Claim C5, amended.  The top-level decode entry point ignores trailing
bytes: for every well-formed value followed by arbitrary extra bytes it
returns the value decoded from the prefix. -/
theorem C5_trailing_accepted (v : BValue) (hwf : Wf v) (extra : List Nat) :
    bencodeDecode (encodeValue v ++ extra) = .ok v := by
  unfold bencodeDecode
  have hb := needV_le v
  have hlen : (encodeValue v ++ extra).length = (encodeValue v).length + extra.length := by
    simp
  have := parse_encodeValue v hwf (3 * (encodeValue v ++ extra).length + 4) extra
    (by rw [hlen]; omega)
  rw [this]
  rfl

/-- Claim C5, witness: the amended statement evaluated at i42e followed by
the extra byte x. -/
theorem C5_witness :
    bencodeDecode (encodeValue (.int 42) ++ [120]) = .ok (.int 42) :=
  C5_trailing_accepted (.int 42) (.int (by decide) (by decide)) [120]

/-! ## Claim C10: duplicate dictionary keys -/

theorem lexLt_trans : ∀ (a b c : List Nat),
    lexLt a b = true → lexLt b c = true → lexLt a c = true
  | [], [], _, hab, _ => by simp [lexLt] at hab
  | [], _ :: _, [], _, hbc => by simp [lexLt] at hbc
  | [], _ :: _, _ :: _, _, _ => rfl
  | _ :: _, [], _, hab, _ => by simp [lexLt] at hab
  | _ :: _, _ :: _, [], _, hbc => by simp [lexLt] at hbc
  | x :: xs, y :: ys, z :: zs, hab, hbc => by
    by_cases hxy : x < y
    · by_cases hyz : y < z
      · simp [lexLt, Nat.lt_trans hxy hyz]
      · have hzy : ¬ z < y := by
          intro h
          simp [lexLt, hyz, h] at hbc
        have heq : y = z := by omega
        subst heq
        simp [lexLt, hxy]
    · have hyx : ¬ y < x := by
        intro h
        simp [lexLt, hxy, h] at hab
      have heq : x = y := by omega
      subst heq
      by_cases hxz : x < z
      · simp [lexLt, hxz]
      · have hzx : ¬ z < x := by
          intro h
          simp [lexLt, hxz, h] at hbc
        have habr : lexLt xs ys = true := by
          simpa [lexLt, hxy, hyx] using hab
        have hbcr : lexLt ys zs = true := by
          simpa [lexLt, hxz, hzx] using hbc
        simpa [lexLt, hxz, hzx] using lexLt_trans xs ys zs habr hbcr

theorem lexLt_total : ∀ (a b : List Nat), lexLt a b = false → a ≠ b → lexLt b a = true
  | [], [], _, hne => absurd rfl hne
  | [], _ :: _, hab, _ => by simp [lexLt] at hab
  | _ :: _, [], _, _ => rfl
  | x :: xs, y :: ys, hab, hne => by
    by_cases hxy : x < y
    · simp [lexLt, hxy] at hab
    · by_cases hyx : y < x
      · simp [lexLt, hyx]
      · have heq : x = y := by omega
        subst heq
        have habr : lexLt xs ys = false := by
          simpa [lexLt, hxy, hyx] using hab
        have hner : xs ≠ ys := fun hc => hne (hc ▸ rfl)
        simpa [lexLt, hxy] using lexLt_total xs ys habr hner

/-- Membership after a BTreeMap insert: the element is the inserted pair or
was already present. -/
theorem btreeInsert_mem {x : List Nat × BValue} {k : List Nat} {v : BValue} :
    ∀ {m : List (List Nat × BValue)}, x ∈ btreeInsert k v m → x = (k, v) ∨ x ∈ m := by
  intro m
  induction m with
  | nil =>
    intro h
    simp [btreeInsert] at h
    exact Or.inl h
  | cons kv rest ih =>
    obtain ⟨k', v'⟩ := kv
    intro h
    unfold btreeInsert at h
    split at h
    · rcases List.mem_cons.mp h with rfl | h2
      · exact Or.inl rfl
      · exact Or.inr h2
    · split at h
      · rcases List.mem_cons.mp h with rfl | h2
        · exact Or.inl rfl
        · exact Or.inr (List.mem_cons_of_mem _ h2)
      · rcases List.mem_cons.mp h with rfl | h2
        · exact Or.inr (List.mem_cons_self _ _)
        · rcases ih h2 with h3 | h3
          · exact Or.inl h3
          · exact Or.inr (List.mem_cons_of_mem _ h3)

/-- BTreeMap::insert preserves the strictly-sorted invariant. -/
theorem btreeInsert_pairwise (k : List Nat) (v : BValue) :
    ∀ (m : List (List Nat × BValue)), List.Pairwise entryLt m →
      List.Pairwise entryLt (btreeInsert k v m) := by
  intro m
  induction m with
  | nil =>
    intro _
    exact List.Pairwise.cons (fun x h => nomatch h) .nil
  | cons kv rest ih =>
    obtain ⟨k', v'⟩ := kv
    intro h
    rcases List.pairwise_cons.mp h with ⟨hhead, hrest⟩
    unfold btreeInsert
    split
    · next hlt =>
      refine List.Pairwise.cons ?_ h
      intro x hx
      rcases List.mem_cons.mp hx with rfl | hx2
      · exact hlt
      · exact lexLt_trans _ _ _ hlt (hhead x hx2)
    · split
      · next hne heq =>
        subst heq
        exact List.Pairwise.cons hhead hrest
      · next hnlt hne =>
        have hk'k : lexLt k' k = true := by
          apply lexLt_total
          · exact Bool.of_not_eq_true hnlt
          · exact hne
        refine List.Pairwise.cons ?_ (ih hrest)
        intro x hx
        rcases btreeInsert_mem hx with rfl | hx2
        · exact hk'k
        · exact hhead x hx2

/-- Folding inserts preserves the strictly-sorted invariant. -/
theorem foldl_btreeInsert_pairwise :
    ∀ (ps m : List (List Nat × BValue)), List.Pairwise entryLt m →
      List.Pairwise entryLt (ps.foldl (fun m kv => btreeInsert kv.1 kv.2 m) m)
  | [], _, hm => hm
  | kv :: ps', m, hm =>
    foldl_btreeInsert_pairwise ps' _ (btreeInsert_pairwise kv.1 kv.2 m hm)

/-- Lookup after an insert: the inserted key maps to the new value, other keys
are unchanged. -/
theorem btreeGet_insert (k k' : List Nat) (v : BValue) :
    ∀ (m : List (List Nat × BValue)),
      btreeGet k (btreeInsert k' v m) = if k = k' then some v else btreeGet k m := by
  intro m
  induction m with
  | nil => simp [btreeInsert, btreeGet]
  | cons kv rest ih =>
    obtain ⟨k'', v''⟩ := kv
    unfold btreeInsert
    split
    · simp [btreeGet]
    · split
      · next hne heq =>
        subst heq
        by_cases hk : k = k' <;> simp [btreeGet, hk]
      · next hnlt hne =>
        by_cases hk : k = k'
        · subst hk
          have hkne : k ≠ k'' := hne
          simp [btreeGet, hkne, ih]
        · by_cases hk2 : k = k''
          · subst hk2
            simp [btreeGet, hk]
          · simp [btreeGet, hk2, hk, ih]

/-- Lookup distributes over list append: the first binding wins. -/
theorem btreeGet_append (k : List Nat) :
    ∀ (xs ys : List (List Nat × BValue)),
      btreeGet k (xs ++ ys) =
        match btreeGet k xs with
        | some v => some v
        | none => btreeGet k ys
  | [], ys => by simp [btreeGet]
  | (k', v') :: xs', ys => by
    by_cases hk : k = k' <;> simp [btreeGet, hk, btreeGet_append k xs' ys]

/-- Lookup in a fold of inserts: the last binding in the entry sequence wins,
falling back to the initial map. -/
theorem btreeGet_foldl (k : List Nat) :
    ∀ (ps m : List (List Nat × BValue)),
      btreeGet k (ps.foldl (fun m kv => btreeInsert kv.1 kv.2 m) m) =
        match btreeGet k ps.reverse with
        | some v => some v
        | none => btreeGet k m
  | [], m => by simp [btreeGet]
  | (k', v') :: ps', m => by
    have hrec := btreeGet_foldl k ps' (btreeInsert k' v' m)
    have happ := btreeGet_append k ps'.reverse [(k', v')]
    simp only [List.foldl_cons, List.reverse_cons, hrec, happ, btreeGet_insert]
    rcases h : btreeGet k ps'.reverse with _ | w
    · by_cases hk : k = k' <;> simp [btreeGet, hk]
    · simp

/-- Number of entries carrying a given key. -/
def countKey (k : List Nat) (ps : List (List Nat × BValue)) : Nat :=
  ps.countP (fun kv => kv.1 = k)

theorem countKey_cons (k a : List Nat) (b : BValue) (ps : List (List Nat × BValue)) :
    countKey k ((a, b) :: ps) = countKey k ps + (if a = k then 1 else 0) := by
  by_cases h : a = k <;> simp [countKey, List.countP_cons, h]

theorem countKey_le_one_of_pairwise (k : List Nat) :
    ∀ (ps : List (List Nat × BValue)), List.Pairwise entryLt ps → countKey k ps ≤ 1
  | [], _ => by simp [countKey]
  | (k', v') :: ps', h => by
    rcases List.pairwise_cons.mp h with ⟨hhead, hrest⟩
    rw [countKey_cons]
    by_cases hk : k' = k
    · subst hk
      have hzero : countKey k' ps' = 0 := by
        rw [countKey, List.countP_eq_zero]
        intro kv hkv
        have := hhead kv hkv
        have hne : kv.1 ≠ k' := fun hc => lexLt_ne this (by rw [hc])
        simpa using hne
      simp [hzero]
    · have := countKey_le_one_of_pairwise k ps' hrest
      simp [hk]
      omega

theorem countKey_pos_of_get (k : List Nat) :
    ∀ (ps : List (List Nat × BValue)) (v : BValue), btreeGet k ps = some v →
      1 ≤ countKey k ps
  | [], v, h => by simp [btreeGet] at h
  | (k', v') :: ps', v, h => by
    rw [countKey_cons]
    by_cases hk : k = k'
    · simp [hk.symm]
    · rw [btreeGet, if_neg hk] at h
      have := countKey_pos_of_get k ps' v h
      omega

/-- Decoding a dictionary literal built from canonical pieces: the result is
the fold of BTreeMap inserts over the entry sequence in input order. -/
theorem bencodeDecode_dictLiteral (ps : List (List Nat × BValue))
    (hutf : ∀ kv ∈ ps, validUtf8 kv.1 = true)
    (hklen : ∀ kv ∈ ps, kv.1.length < 2 ^ 64)
    (hv : ∀ kv ∈ ps, Wf kv.2) :
    bencodeDecode (100 :: (encodeEntries ps ++ [101])) =
      .ok (.dict (ps.foldl (fun m kv => btreeInsert kv.1 kv.2 m) [])) := by
  unfold bencodeDecode
  have hb := needD_le ps
  have hshape : (100 :: (encodeEntries ps ++ [101]) : List Nat) =
      100 :: (encodeEntries ps ++ 101 :: []) := rfl
  set fuel := 3 * (100 :: (encodeEntries ps ++ [101]) : List Nat).length + 4 with hfuel
  obtain ⟨f, hf⟩ : ∃ f, fuel = f + 1 := ⟨fuel - 1, by omega⟩
  have hflen : needD ps ≤ f := by
    have : fuel = 3 * ((encodeEntries ps).length + 2) + 4 := by
      simp [hfuel]
    omega
  rw [hf]
  show Except.map Prod.fst (parseValue (f + 1) (100 :: (encodeEntries ps ++ 101 :: []))) = _
  unfold parseValue
  simp only [if_false, if_true, List.drop_succ_cons, List.drop_zero]
  rw [parse_encodeEntries ps hutf hklen hv f [] [] hflen]
  rfl

/-- Claim C10: a dictionary literal may bind the same key several times; the
decoder accepts it, the resulting map binds the key to the value of its last
occurrence (earlier bindings are discarded), and the map carries a single
entry for that key, so re-encoding emits the key once.  The literal is the
byte sequence d, the concatenated canonical entry encodings, e; the last
occurrence of the key is the explicitly appended final entry. -/
theorem C10_last_occurrence_wins (front : List (List Nat × BValue)) (k : List Nat)
    (v : BValue)
    (hutf : ∀ kv ∈ front, validUtf8 kv.1 = true)
    (hklen : ∀ kv ∈ front, kv.1.length < 2 ^ 64)
    (hv : ∀ kv ∈ front, Wf kv.2)
    (hkutf : validUtf8 k = true) (hklen2 : k.length < 2 ^ 64) (hwv : Wf v) :
    ∃ d : List (List Nat × BValue),
      bencodeDecode (100 :: (encodeEntries (front ++ [(k, v)]) ++ [101])) = .ok (.dict d) ∧
      btreeGet k d = some v ∧
      countKey k d = 1 := by
  have hutf' : ∀ kv ∈ front ++ [(k, v)], validUtf8 kv.1 = true := by
    intro kv hkv
    rcases List.mem_append.mp hkv with h | h
    · exact hutf kv h
    · rcases List.mem_singleton.mp h with rfl
      exact hkutf
  have hklen' : ∀ kv ∈ front ++ [(k, v)], kv.1.length < 2 ^ 64 := by
    intro kv hkv
    rcases List.mem_append.mp hkv with h | h
    · exact hklen kv h
    · rcases List.mem_singleton.mp h with rfl
      exact hklen2
  have hv' : ∀ kv ∈ front ++ [(k, v)], Wf kv.2 := by
    intro kv hkv
    rcases List.mem_append.mp hkv with h | h
    · exact hv kv h
    · rcases List.mem_singleton.mp h with rfl
      exact hwv
  refine ⟨(front ++ [(k, v)]).foldl (fun m kv => btreeInsert kv.1 kv.2 m) [],
    bencodeDecode_dictLiteral _ hutf' hklen' hv', ?_, ?_⟩
  · rw [btreeGet_foldl k (front ++ [(k, v)]) []]
    simp [btreeGet]
  · have hget : btreeGet k ((front ++ [(k, v)]).foldl
        (fun m kv => btreeInsert kv.1 kv.2 m) []) = some v := by
      rw [btreeGet_foldl k (front ++ [(k, v)]) []]
      simp [btreeGet]
    have hpw := foldl_btreeInsert_pairwise (front ++ [(k, v)]) [] .nil
    have h1 := countKey_le_one_of_pairwise k _ hpw
    have h2 := countKey_pos_of_get k _ v hget
    omega

/-- Claim C10, witness: the literal d1:ai1e1:ai2ee binds key a twice; the
decoded map holds a once, bound to 2. -/
theorem C10_witness :
    ∃ d : List (List Nat × BValue),
      bencodeDecode (100 :: (encodeEntries [([97], .int 1), ([97], .int 2)] ++ [101])) =
        .ok (.dict d) ∧
      btreeGet [97] d = some (.int 2) ∧
      countKey [97] d = 1 := by
  have h := C10_last_occurrence_wins [([97], .int 1)] [97] (.int 2)
    (by intro kv hkv; rcases List.mem_singleton.mp hkv with rfl; decide)
    (by intro kv hkv; rcases List.mem_singleton.mp hkv with rfl; decide)
    (by intro kv hkv; rcases List.mem_singleton.mp hkv with rfl
        exact .int (by decide) (by decide))
    (by decide) (by decide) (.int (by decide) (by decide))
  simpa using h

/-! ## Torrent metainfo (src/torrent/metainfo.rs) -/

/-- TorrentInfo with usize fields as naturals; name holds the bytes of the
Rust String (String::from_utf8_lossy is total, so only the byte content
matters for the claims settled here). -/
structure TorrentInfo where
  name : List Nat
  length : Nat
  piece_length : Nat
  pieces : List Nat
  deriving Repr, DecidableEq

namespace TorrentInfo

/-- TorrentInfo::total_pieces. -/
def total_pieces (t : TorrentInfo) : Nat := t.pieces.length / 20

/-- TorrentInfo::piece_size.  For the last piece the remainder of length
modulo piece_length is used unless it is zero, in which case a full
piece_length is returned. -/
def piece_size (t : TorrentInfo) (piece_index : Nat) : Nat :=
  if piece_index = t.total_pieces - 1 then
    if t.length % t.piece_length = 0 then t.piece_length
    else t.length % t.piece_length
  else t.piece_length

end TorrentInfo

/-! ## Claim C2: piece-size law -/

/-- Claim C2.  For a TorrentInfo with positive piece_length whose piece count
(pieces length divided by 20, at least one) is consistent with the file
length (it equals the ceiling of length over piece_length): every piece
before the last has size piece_length, the last piece has size
length minus piece_length times (piece_count minus one) and is a full
piece_length exactly when length is a multiple of piece_length, and the
piece sizes sum to length. -/
theorem C2_piece_size_law (t : TorrentInfo)
    (hpl : 0 < t.piece_length)
    (hpc : 1 ≤ t.total_pieces)
    (hceil : t.total_pieces = (t.length + t.piece_length - 1) / t.piece_length) :
    (∀ i, i < t.total_pieces - 1 → t.piece_size i = t.piece_length) ∧
    t.piece_size (t.total_pieces - 1) =
      t.length - t.piece_length * (t.total_pieces - 1) ∧
    (t.piece_size (t.total_pieces - 1) = t.piece_length ↔
      t.length % t.piece_length = 0) ∧
    ∑ i ∈ Finset.range t.total_pieces, t.piece_size i = t.length := by
  have hq := Nat.div_add_mod t.length t.piece_length
  have hrlt : t.length % t.piece_length < t.piece_length := Nat.mod_lt _ hpl
  have hsplit : (t.length + t.piece_length - 1) / t.piece_length =
      t.length / t.piece_length +
        (t.length % t.piece_length + t.piece_length - 1) / t.piece_length := by
    have h1 : t.length + t.piece_length - 1 =
        t.piece_length * (t.length / t.piece_length) +
          (t.length % t.piece_length + t.piece_length - 1) := by omega
    rw [h1, Nat.mul_add_div hpl]
  have hcase0 : t.length % t.piece_length = 0 →
      t.total_pieces = t.length / t.piece_length := by
    intro hr
    rw [hceil, hsplit, hr]
    simp [Nat.div_eq_of_lt (show t.piece_length - 1 < t.piece_length by omega)]
  have hcase1 : t.length % t.piece_length ≠ 0 →
      t.total_pieces = t.length / t.piece_length + 1 := by
    intro hr
    rw [hceil, hsplit]
    have h1 : (t.length % t.piece_length + t.piece_length - 1) / t.piece_length = 1 := by
      apply Nat.div_eq_of_lt_le <;> omega
    omega
  have hfirst : ∀ i, i < t.total_pieces - 1 → t.piece_size i = t.piece_length := by
    intro i hi
    unfold TorrentInfo.piece_size
    rw [if_neg (by omega)]
  have hconst : ∑ i ∈ Finset.range (t.total_pieces - 1), t.piece_size i =
      (t.total_pieces - 1) * t.piece_length := by
    rw [Finset.sum_congr rfl (fun i hi => hfirst i (Finset.mem_range.mp hi))]
    simp [Finset.sum_const]
  have hsum : ∑ i ∈ Finset.range t.total_pieces, t.piece_size i =
      (t.total_pieces - 1) * t.piece_length + t.piece_size (t.total_pieces - 1) := by
    have hstep : t.total_pieces = (t.total_pieces - 1) + 1 := by omega
    rw [hstep, Finset.sum_range_succ, hconst]
    congr 2
  by_cases hr : t.length % t.piece_length = 0
  · have hpcq := hcase0 hr
    have hq1 : 1 ≤ t.length / t.piece_length := by omega
    have hmul : t.piece_length * (t.length / t.piece_length) =
        t.piece_length * (t.length / t.piece_length - 1) + t.piece_length := by
      conv_lhs => rw [show t.length / t.piece_length =
        (t.length / t.piece_length - 1) + 1 by omega]
      rw [Nat.mul_succ]
    have hcomm : (t.length / t.piece_length - 1) * t.piece_length =
        t.piece_length * (t.length / t.piece_length - 1) := Nat.mul_comm _ _
    have hlastval : t.piece_size (t.total_pieces - 1) = t.piece_length := by
      unfold TorrentInfo.piece_size
      rw [if_pos rfl, if_pos hr]
    refine ⟨hfirst, ?_, ?_, ?_⟩
    · rw [hlastval, hpcq]
      omega
    · rw [hlastval]
      simp [hr]
    · rw [hsum, hlastval, hpcq]
      omega
  · have hpcq := hcase1 hr
    have hcomm : (t.length / t.piece_length) * t.piece_length =
        t.piece_length * (t.length / t.piece_length) := Nat.mul_comm _ _
    have hlastval : t.piece_size (t.total_pieces - 1) = t.length % t.piece_length := by
      unfold TorrentInfo.piece_size
      rw [if_pos rfl, if_neg hr]
    refine ⟨hfirst, ?_, ?_, ?_⟩
    · rw [hlastval, hpcq]
      simp
      omega
    · rw [hlastval]
      constructor
      · intro h
        omega
      · intro h
        exact absurd h hr
    · rw [hsum, hlastval, hpcq]
      simp
      omega

/-- Claim C2, witness: a 3-byte file with piece_length 2 and two pieces has
piece sizes 2 and 1 summing to 3, and the last piece is not full. -/
theorem C2_witness :
    (∀ i, i < (⟨[97], 3, 2, List.replicate 40 0⟩ : TorrentInfo).total_pieces - 1 →
      (⟨[97], 3, 2, List.replicate 40 0⟩ : TorrentInfo).piece_size i = 2) ∧
    (⟨[97], 3, 2, List.replicate 40 0⟩ : TorrentInfo).piece_size 1 = 1 ∧
    ∑ i ∈ Finset.range 2, (⟨[97], 3, 2, List.replicate 40 0⟩ : TorrentInfo).piece_size i = 3 := by
  have h := C2_piece_size_law ⟨[97], 3, 2, List.replicate 40 0⟩
    (by decide) (by decide) (by decide)
  have hpc : (⟨[97], 3, 2, List.replicate 40 0⟩ : TorrentInfo).total_pieces = 2 := by decide
  refine ⟨h.1, ?_, ?_⟩
  · have := h.2.1
    rw [hpc] at this
    simpa using this
  · have := h.2.2.2
    rw [hpc] at this
    simpa using this

/-! ## Peer handshake (src/torrent/peer.rs) -/

/-- Protocol string bytes of BitTorrent protocol. -/
def PROTOCOL : List Nat :=
  [66, 105, 116, 84, 111, 114, 114, 101, 110, 116, 32, 112, 114, 111, 116, 111, 99, 111, 108]

/-- The process-wide peer id constant from main.rs: the ASCII bytes of
00112233445566778899. -/
def PEER_ID : List Nat :=
  [48, 48, 49, 49, 50, 50, 51, 51, 52, 52, 53, 53, 54, 54, 55, 55, 56, 56, 57, 57]

/-- Reserved bytes with byte index 5 set to 0x10 (extension protocol bit). -/
def reservedBytes : List Nat := [0, 0, 0, 0, 0, 16, 0, 0]

/-- PeerConfig: the configured peer id, info hash and port. -/
structure PeerConfig where
  peer_id : List Nat
  info_hash : List Nat
  port : Nat
  deriving Repr, DecidableEq

/-- The 68-byte handshake blob written by Peer::handshake: pstrlen 19, the
protocol string, the reserved bytes, the configured info_hash, and then the
global PEER_ID constant — the source appends the PEER_ID static, not the
peer id stored in the config. -/
def handshakeMessage (config : PeerConfig) : List Nat :=
  19 :: PROTOCOL ++ reservedBytes ++ config.info_hash ++ PEER_ID

/-! ## Claim C3: handshake wire image -/

/-- Claim C3, counterexample.  With info_hash twenty 0xAA bytes and a
configured peer_id of twenty 0xBB bytes, the blob does not end in the
configured peer id: the session writes the global constant peer id
00112233445566778899 instead, so the claimed wire image (ending in twenty
0xBB bytes) is wrong. -/
theorem C3_counterexample :
    (handshakeMessage ⟨List.replicate 20 187, List.replicate 20 170, 6881⟩).drop 48 =
      PEER_ID ∧
    (handshakeMessage ⟨List.replicate 20 187, List.replicate 20 170, 6881⟩).drop 48 ≠
      List.replicate 20 187 ∧
    handshakeMessage ⟨List.replicate 20 187, List.replicate 20 170, 6881⟩ ≠
      19 :: PROTOCOL ++ reservedBytes ++ List.replicate 20 170 ++ List.replicate 20 187 := by
  decide

/-- Claim C3, amended.  For every configured 20-byte info_hash the first 68
bytes written are the byte 19, the protocol string, reserved bytes with only
byte index 5 carrying 0x10, the configured info_hash, and then the 20 bytes
of the global PEER_ID constant, regardless of the configured peer_id. -/
theorem C3_handshake_image (config : PeerConfig) (h : config.info_hash.length = 20) :
    (handshakeMessage config).length = 68 ∧
    (handshakeMessage config).take 20 = 19 :: PROTOCOL ∧
    ((handshakeMessage config).drop 20).take 8 = reservedBytes ∧
    ((handshakeMessage config).drop 28).take 20 = config.info_hash ∧
    (handshakeMessage config).drop 48 = PEER_ID := by
  have hshape : handshakeMessage config =
      (19 :: PROTOCOL ++ reservedBytes) ++ (config.info_hash ++ PEER_ID) := by
    unfold handshakeMessage
    simp
  refine ⟨?_, ?_, ?_, ?_, ?_⟩
  · rw [hshape]
    simp [PROTOCOL, reservedBytes, PEER_ID, h]
  · rw [hshape]
    rfl
  · rw [hshape]
    rfl
  · rw [hshape]
    show (config.info_hash ++ PEER_ID).take 20 = config.info_hash
    rw [List.take_left' h]
  · rw [hshape]
    show (config.info_hash ++ PEER_ID).drop 20 = PEER_ID
    rw [List.drop_left' h]

/-- Claim C3, witness: the amended wire image at the 0xAA info hash and 0xBB
configured peer id. -/
theorem C3_witness :
    ((handshakeMessage ⟨List.replicate 20 187, List.replicate 20 170, 6881⟩).drop 28).take 20 =
      List.replicate 20 170 ∧
    (handshakeMessage ⟨List.replicate 20 187, List.replicate 20 170, 6881⟩).drop 48 =
      PEER_ID := by
  have h := C3_handshake_image ⟨List.replicate 20 187, List.replicate 20 170, 6881⟩ (by decide)
  exact ⟨h.2.2.2.1, h.2.2.2.2⟩

/-! ## Peer-wire messages (src/torrent/message.rs) -/

/-- The Message enum. -/
inductive Message where
  | keepAlive
  | choke
  | unchoke
  | interested
  | notInterested
  | haveMsg (index : Nat)
  | bitfield (data : List Nat)
  | request (index begin_ length : Nat)
  | piece (index begin_ : Nat) (block : List Nat)
  | cancel (index begin_ length : Nat)
  deriving Repr, DecidableEq

/-- u32::from_be_bytes on a 4-byte slice. -/
def u32FromBe (b : List Nat) : Nat :=
  match b with
  | [b0, b1, b2, b3] => ((b0 * 256 + b1) * 256 + b2) * 256 + b3
  | _ => 0

/-- Outcome of Message::from_bytes.  Rust indexes the payload with fixed
ranges such as payload[..4] and payload[8..12]; when the payload is shorter
the slice operation panics, which is modelled as the explicit panic
outcome.  Unknown ids return the Unknown message ID error. -/
inductive MsgOut where
  | ok (m : Message)
  | errUnknown (id : Nat)
  | panic
  deriving Repr, DecidableEq

/-- Message::from_bytes.  Empty input is KeepAlive; otherwise the first byte
is the id and the rest the payload.  Ids 0 to 3 ignore the payload entirely;
id 5 takes the whole payload; ids 4, 6, 7, 8 slice fixed ranges out of the
payload, panicking when it is too short and ignoring any excess (for 4, 6
and 8); other ids are the unknown-id error. -/
def messageFromBytes (bytes : List Nat) : MsgOut :=
  match bytes with
  | [] => .ok .keepAlive
  | id :: payload =>
    if id = 0 then .ok .choke
    else if id = 1 then .ok .unchoke
    else if id = 2 then .ok .interested
    else if id = 3 then .ok .notInterested
    else if id = 4 then
      if payload.length < 4 then .panic
      else .ok (.haveMsg (u32FromBe (payload.take 4)))
    else if id = 5 then .ok (.bitfield payload)
    else if id = 6 then
      if payload.length < 12 then .panic
      else .ok (.request (u32FromBe (payload.take 4))
        (u32FromBe ((payload.drop 4).take 4)) (u32FromBe ((payload.drop 8).take 4)))
    else if id = 7 then
      if payload.length < 8 then .panic
      else .ok (.piece (u32FromBe (payload.take 4))
        (u32FromBe ((payload.drop 4).take 4)) (payload.drop 8))
    else if id = 8 then
      if payload.length < 12 then .panic
      else .ok (.cancel (u32FromBe (payload.take 4))
        (u32FromBe ((payload.drop 4).take 4)) (u32FromBe ((payload.drop 8).take 4)))
    else .errUnknown id

/-! ## Claim C6: message decoding totality and length checks -/

/-- Claim C6, counterexample.  A Choke message with a non-empty extra payload
is accepted rather than rejected, and a Have message with an empty payload
panics on the slice payload[..4] rather than returning an error, so
from_bytes is neither crash-free nor length-checked as claimed. -/
theorem C6_counterexample :
    messageFromBytes [0, 99] = .ok .choke ∧ messageFromBytes [4] = .panic := by
  decide

/-- Claim C6, amended.  from_bytes returns KeepAlive on empty input, accepts
ids 0 to 3 regardless of extra payload, returns the unknown-id error for
every id of 9 or more, panics (out-of-bounds slice) for ids 4, 6, 7, 8 when
the payload is shorter than 4, 12, 8, 12 bytes respectively, and succeeds on
id 4 when at least 4 payload bytes are present, ignoring any excess. -/
theorem C6_from_bytes_behaviour (id : Nat) (payload : List Nat) :
    (messageFromBytes [] = .ok .keepAlive) ∧
    (id = 0 → messageFromBytes (id :: payload) = .ok .choke) ∧
    (id = 1 → messageFromBytes (id :: payload) = .ok .unchoke) ∧
    (id = 2 → messageFromBytes (id :: payload) = .ok .interested) ∧
    (id = 3 → messageFromBytes (id :: payload) = .ok .notInterested) ∧
    (9 ≤ id → messageFromBytes (id :: payload) = .errUnknown id) ∧
    (id = 4 → payload.length < 4 → messageFromBytes (id :: payload) = .panic) ∧
    (id = 6 → payload.length < 12 → messageFromBytes (id :: payload) = .panic) ∧
    (id = 7 → payload.length < 8 → messageFromBytes (id :: payload) = .panic) ∧
    (id = 8 → payload.length < 12 → messageFromBytes (id :: payload) = .panic) ∧
    (id = 4 → 4 ≤ payload.length →
      messageFromBytes (id :: payload) = .ok (.haveMsg (u32FromBe (payload.take 4)))) := by
  refine ⟨rfl, ?_, ?_, ?_, ?_, ?_, ?_, ?_, ?_, ?_, ?_⟩
  · intro h
    subst h
    rfl
  · intro h
    subst h
    rfl
  · intro h
    subst h
    rfl
  · intro h
    subst h
    rfl
  · intro h
    have h0 : id ≠ 0 := by omega
    have h1 : id ≠ 1 := by omega
    have h2 : id ≠ 2 := by omega
    have h3 : id ≠ 3 := by omega
    have h4 : id ≠ 4 := by omega
    have h5 : id ≠ 5 := by omega
    have h6 : id ≠ 6 := by omega
    have h7 : id ≠ 7 := by omega
    have h8 : id ≠ 8 := by omega
    simp [messageFromBytes, h0, h1, h2, h3, h4, h5, h6, h7, h8]
  · intro h h2
    subst h
    simp [messageFromBytes, h2]
  · intro h h2
    subst h
    simp [messageFromBytes, h2]
  · intro h h2
    subst h
    simp [messageFromBytes, h2]
  · intro h h2
    subst h
    simp [messageFromBytes, h2]
  · intro h h2
    subst h
    have hnot : ¬ payload.length < 4 := by omega
    simp [messageFromBytes, hnot]

/-- Claim C6, witness: the amended behaviour evaluated at the unknown id 9
and at a Have payload of exactly 4 bytes. -/
theorem C6_witness :
    messageFromBytes [9] = .errUnknown 9 ∧
    messageFromBytes [4, 0, 0, 0, 42] = .ok (.haveMsg 42) := by
  constructor
  · exact (C6_from_bytes_behaviour 9 []).2.2.2.2.2.1 (by omega)
  · have h := (C6_from_bytes_behaviour 4 [0, 0, 0, 42]).2.2.2.2.2.2.2.2.2.2 rfl (by decide)
    simpa using h

/-! ## Metainfo construction (src/torrent/metainfo.rs, TorrentMetainfo::from_bytes) -/

def announceKey : List Nat := [97, 110, 110, 111, 117, 110, 99, 101]

def infoKey : List Nat := [105, 110, 102, 111]

def nameKey : List Nat := [110, 97, 109, 101]

def lengthKey : List Nat := [108, 101, 110, 103, 116, 104]

def pieceLengthKey : List Nat := [112, 105, 101, 99, 101, 32, 108, 101, 110, 103, 116, 104]

def piecesKey : List Nat := [112, 105, 101, 99, 101, 115]

/-- TorrentMetainfo: announce URL bytes plus the typed info. -/
structure TorrentMetainfo where
  announce : List Nat
  info : TorrentInfo
  deriving Repr, DecidableEq

/-- Errors of TorrentMetainfo::from_bytes, one per anyhow message. -/
inductive MetaErr where
  /-- Bencode decode failure. -/
  | decodeErr (e : PErr)
  /-- Invalid torrent file format (top level not a dict). -/
  | notDict
  /-- Missing or invalid announce field. -/
  | badAnnounce
  /-- Missing or invalid info dictionary. -/
  | badInfo
  /-- Missing or invalid name field. -/
  | badName
  /-- Missing or invalid length field. -/
  | badLength
  /-- Missing or invalid piece length field. -/
  | badPieceLength
  /-- Missing or invalid pieces field. -/
  | badPieces
  deriving Repr, DecidableEq

/-- The Rust cast expression n as usize on an i64: two's-complement wrap into
64 bits. -/
def usizeOfI64 (n : Int) : Nat := (n % (2 ^ 64 : Int)).toNat

/-- TorrentMetainfo::from_bytes: decode, require a top-level dict, require
announce as a byte string (first), then the info dict with name, length,
piece length and pieces fields.  Bencode::decode_bytes is not under src; it
is embedded as the same Decoder::parse entry point used by
BValue::from_bytes.  String::from_utf8_lossy is total, so announce and name
keep their byte content. -/
def torrentMetainfoFromBytes (bytes : List Nat) : Except MetaErr TorrentMetainfo :=
  match bencodeDecode bytes with
  | .error e => .error (.decodeErr e)
  | .ok (.dict d) =>
    match btreeGet announceKey d with
    | some (.str ann) =>
      match btreeGet infoKey d with
      | some (.dict infoDict) =>
        match btreeGet nameKey infoDict with
        | some (.str nm) =>
          match btreeGet lengthKey infoDict with
          | some (.int n) =>
            match btreeGet pieceLengthKey infoDict with
            | some (.int m) =>
              match btreeGet piecesKey infoDict with
              | some (.str pieces) =>
                .ok ⟨ann, ⟨nm, usizeOfI64 n, usizeOfI64 m, pieces⟩⟩
              | _ => .error .badPieces
            | _ => .error .badPieceLength
          | _ => .error .badLength
        | _ => .error .badName
      | _ => .error .badInfo
    | _ => .error .badAnnounce
  | .ok _ => .error .notDict

/-! ## Claim C9: announce optional in metainfo construction -/

/-- Claim C9, counterexample.  The bencoded dict
d4:infod6:lengthi3e4:name1:a12:piece lengthi2e6:pieces0:ee carries a
well-formed info sub-dictionary but no announce key, and construction fails
with the missing-announce error instead of succeeding: announce is required,
not optional. -/
theorem C9_counterexample :
    torrentMetainfoFromBytes
      [100, 52, 58, 105, 110, 102, 111, 100, 54, 58, 108, 101, 110, 103, 116, 104,
       105, 51, 101, 52, 58, 110, 97, 109, 101, 49, 58, 97, 49, 50, 58, 112, 105,
       101, 99, 101, 32, 108, 101, 110, 103, 116, 104, 105, 50, 101, 54, 58, 112,
       105, 101, 99, 101, 115, 48, 58, 101, 101] = .error .badAnnounce := by
  rfl

/-- Claim C9, amended.  The announce key is required: construction of the
metainfo from the canonical encoding of a top-level dict fails with the
missing-announce error whenever the dict has no announce entry, regardless
of the info dictionary; when announce is present as a byte string and the
info dict carries well-typed name, length, piece length and pieces fields,
construction succeeds. -/
theorem C9_announce_required (d : List (List Nat × BValue)) (hwf : Wf (.dict d)) :
    (btreeGet announceKey d = none →
      torrentMetainfoFromBytes (encodeValue (.dict d)) = .error .badAnnounce) ∧
    (∀ ann infoDict nm n m pieces,
      btreeGet announceKey d = some (.str ann) →
      btreeGet infoKey d = some (.dict infoDict) →
      btreeGet nameKey infoDict = some (.str nm) →
      btreeGet lengthKey infoDict = some (.int n) →
      btreeGet pieceLengthKey infoDict = some (.int m) →
      btreeGet piecesKey infoDict = some (.str pieces) →
      torrentMetainfoFromBytes (encodeValue (.dict d)) =
        .ok ⟨ann, ⟨nm, usizeOfI64 n, usizeOfI64 m, pieces⟩⟩) := by
  have hdec := decode_encode_of_wf (.dict d) hwf
  constructor
  · intro hnone
    unfold torrentMetainfoFromBytes
    rw [hdec]
    simp only [hnone]
  · intro ann infoDict nm n m pieces h1 h2 h3 h4 h5 h6
    unfold torrentMetainfoFromBytes
    rw [hdec]
    simp only [h1, h2, h3, h4, h5, h6]

/-- Claim C9, witness: the amended statement applied to a concrete metainfo
dict with announce present, and to the same info dict without announce. -/
theorem C9_witness :
    torrentMetainfoFromBytes (encodeValue (.dict
      [(announceKey, .str [120]),
       (infoKey, .dict
         [(lengthKey, .int 3), (nameKey, .str [97]),
          (pieceLengthKey, .int 2), (piecesKey, .str (List.replicate 40 0))])])) =
      .ok ⟨[120], ⟨[97], usizeOfI64 3, usizeOfI64 2, List.replicate 40 0⟩⟩ := by
  have hwfInfo : Wf (.dict
      [(lengthKey, .int 3), (nameKey, .str [97]),
       (pieceLengthKey, .int 2), (piecesKey, .str (List.replicate 40 0))]) := by
    apply Wf.dict
    · intro kv h
      rcases List.mem_cons.mp h with rfl | h
      · decide
      · rcases List.mem_cons.mp h with rfl | h
        · decide
        · rcases List.mem_cons.mp h with rfl | h
          · decide
          · rcases List.mem_cons.mp h with rfl | h
            · decide
            · cases h
    · intro kv h
      rcases List.mem_cons.mp h with rfl | h
      · decide
      · rcases List.mem_cons.mp h with rfl | h
        · decide
        · rcases List.mem_cons.mp h with rfl | h
          · decide
          · rcases List.mem_cons.mp h with rfl | h
            · decide
            · cases h
    · intro kv h
      rcases List.mem_cons.mp h with rfl | h
      · exact .int (by decide) (by decide)
      · rcases List.mem_cons.mp h with rfl | h
        · exact .str (by decide)
        · rcases List.mem_cons.mp h with rfl | h
          · exact .int (by decide) (by decide)
          · rcases List.mem_cons.mp h with rfl | h
            · exact .str (by decide)
            · cases h
    · refine List.Pairwise.cons ?_ (List.Pairwise.cons ?_ (List.Pairwise.cons ?_
        (List.Pairwise.cons (fun x h => nomatch h) .nil)))
      · intro x h
        rcases List.mem_cons.mp h with rfl | h
        · decide
        · rcases List.mem_cons.mp h with rfl | h
          · decide
          · rcases List.mem_cons.mp h with rfl | h
            · decide
            · cases h
      · intro x h
        rcases List.mem_cons.mp h with rfl | h
        · decide
        · rcases List.mem_cons.mp h with rfl | h
          · decide
          · cases h
      · intro x h
        rcases List.mem_cons.mp h with rfl | h
        · decide
        · cases h
  have hwf : Wf (.dict
      [(announceKey, .str [120]),
       (infoKey, .dict
         [(lengthKey, .int 3), (nameKey, .str [97]),
          (pieceLengthKey, .int 2), (piecesKey, .str (List.replicate 40 0))])]) := by
    apply Wf.dict
    · intro kv h
      rcases List.mem_cons.mp h with rfl | h
      · decide
      · rcases List.mem_cons.mp h with rfl | h
        · decide
        · cases h
    · intro kv h
      rcases List.mem_cons.mp h with rfl | h
      · decide
      · rcases List.mem_cons.mp h with rfl | h
        · decide
        · cases h
    · intro kv h
      rcases List.mem_cons.mp h with rfl | h
      · exact .str (by decide)
      · rcases List.mem_cons.mp h with rfl | h
        · exact hwfInfo
        · cases h
    · refine List.Pairwise.cons ?_ (List.Pairwise.cons (fun x h => nomatch h) .nil)
      intro x h
      rcases List.mem_cons.mp h with rfl | h
      · decide
      · cases h
  exact (C9_announce_required _ hwf).2 [120] _ [97] 3 2 (List.replicate 40 0)
    rfl rfl rfl rfl rfl rfl

/-! ## Tracker response parsing (src/torrent/tracker.rs, get_peers) -/

def peersKey : List Nat := [112, 101, 101, 114, 115]

/-- A compact peer record: four IPv4 octets and a big-endian port. -/
structure PeerAddr where
  ip0 : Nat
  ip1 : Nat
  ip2 : Nat
  ip3 : Nat
  port : Nat
  deriving Repr, DecidableEq

/-- chunks_exact(6) over the peers byte string: complete 6-byte records are
parsed as ip(4) plus big-endian port(2); a trailing remainder shorter than 6
bytes is silently dropped. -/
def chunksExact6 : List Nat → List PeerAddr
  | b0 :: b1 :: b2 :: b3 :: b4 :: b5 :: rest =>
    ⟨b0, b1, b2, b3, b4 * 256 + b5⟩ :: chunksExact6 rest
  | _ => []

/-- Errors of the tracker response parse. -/
inductive TrackerErr where
  /-- Bencode decode failure of the body. -/
  | decodeErr (e : PErr)
  /-- get_dict failure: the body is not a dict. -/
  | notDict
  /-- Peers not found. -/
  | peersNotFound
  /-- get_bytes failure: the peers value is not a byte string. -/
  | notBytes
  deriving Repr, DecidableEq

/-- Response-parsing portion of get_peers (tracker.rs lines 110 to 125).
Modelled from the spec: Bencode::decode_bytes, BValue::get_dict and
BValue::get_bytes are referenced by tracker.rs but their bodies are not
under src; decode_bytes is embedded as the Decoder::parse entry point and
get_dict / get_bytes fail on non-dict and non-byte-string values, per the
spec's BadTrackerResponse contract. -/
def getPeersParse (body : List Nat) : Except TrackerErr (List PeerAddr) :=
  match bencodeDecode body with
  | .error e => .error (.decodeErr e)
  | .ok (.dict d) =>
    match btreeGet peersKey d with
    | none => .error .peersNotFound
    | some (.str pb) => .ok (chunksExact6 pb)
    | some _ => .error .notBytes
  | .ok _ => .error .notDict

theorem chunksExact6_length : ∀ pb : List Nat, (chunksExact6 pb).length = pb.length / 6
  | [] => by simp [chunksExact6]
  | [_] => by simp [chunksExact6]
  | [_, _] => by simp [chunksExact6]
  | [_, _, _] => by simp [chunksExact6]
  | [_, _, _, _] => by simp [chunksExact6]
  | [_, _, _, _, _] => by simp [chunksExact6]
  | b0 :: b1 :: b2 :: b3 :: b4 :: b5 :: rest => by
    have h := chunksExact6_length rest
    show (⟨b0, b1, b2, b3, b4 * 256 + b5⟩ :: chunksExact6 rest).length =
      (b0 :: b1 :: b2 :: b3 :: b4 :: b5 :: rest).length / 6
    simp only [List.length_cons]
    omega

/-! ## Claim C7: tracker response validation -/

/-- Claim C7, counterexample.  A tracker body whose peers byte string has
length 7 (not a multiple of 6) is accepted: chunks_exact(6) silently drops
the trailing byte and a truncated one-peer list is returned instead of an
error. -/
theorem C7_counterexample :
    getPeersParse [100, 53, 58, 112, 101, 101, 114, 115, 55, 58,
      65, 65, 65, 65, 65, 65, 65, 101] = .ok [⟨65, 65, 65, 65, 16705⟩] := by
  rfl

/-- Claim C7, amended.  Non-dict bodies and dicts without a peers entry do
fail as claimed; but a peers byte string whose length is not a multiple of 6
is not rejected: the parse succeeds with the complete 6-byte records
(floor of length over 6 peers) and the remainder silently dropped. -/
theorem C7_tracker_response (v : BValue) (hv : Wf v) (d : List (List Nat × BValue))
    (hd : Wf (.dict d)) (pb : List Nat) :
    ((∀ ps, v ≠ .dict ps) → getPeersParse (encodeValue v) = .error .notDict) ∧
    (btreeGet peersKey d = none →
      getPeersParse (encodeValue (.dict d)) = .error .peersNotFound) ∧
    (btreeGet peersKey d = some (.str pb) →
      getPeersParse (encodeValue (.dict d)) = .ok (chunksExact6 pb) ∧
      (chunksExact6 pb).length = pb.length / 6) := by
  have hdec := decode_encode_of_wf v hv
  have hdecd := decode_encode_of_wf (.dict d) hd
  refine ⟨?_, ?_, ?_⟩
  · intro hnd
    unfold getPeersParse
    rw [hdec]
    cases v with
    | dict ps => exact absurd rfl (hnd ps)
    | int n => rfl
    | str s => rfl
    | list xs => rfl
  · intro hnone
    unfold getPeersParse
    rw [hdecd]
    simp only [hnone]
  · intro hsome
    refine ⟨?_, chunksExact6_length pb⟩
    unfold getPeersParse
    rw [hdecd]
    simp only [hsome]

/-- Claim C7, witness: the amended statement applied to a peers string of
length 7 (one truncated peer) and to a dict with no peers entry. -/
theorem C7_witness :
    getPeersParse (encodeValue (.dict [(peersKey, .str [65, 65, 65, 65, 65, 65, 65])])) =
      .ok [⟨65, 65, 65, 65, 16705⟩] ∧
    getPeersParse (encodeValue (.dict [])) = .error .peersNotFound := by
  have hwfd : Wf (.dict [(peersKey, .str [65, 65, 65, 65, 65, 65, 65])]) := by
    apply Wf.dict
    · intro kv h
      rcases List.mem_cons.mp h with rfl | h
      · decide
      · cases h
    · intro kv h
      rcases List.mem_cons.mp h with rfl | h
      · decide
      · cases h
    · intro kv h
      rcases List.mem_cons.mp h with rfl | h
      · exact .str (by decide)
      · cases h
    · exact List.Pairwise.cons (fun x h => nomatch h) .nil
  have hwfe : Wf (.dict ([] : List (List Nat × BValue))) := by
    apply Wf.dict
    · intro kv h
      cases h
    · intro kv h
      cases h
    · intro kv h
      cases h
    · exact .nil
  constructor
  · have h := (C7_tracker_response (.int 0) (.int (by decide) (by decide)) _ hwfd
      [65, 65, 65, 65, 65, 65, 65]).2.2 rfl
    exact h.1
  · exact (C7_tracker_response (.int 0) (.int (by decide) (by decide)) _ hwfe []).2.1 rfl

/-! ## Magnet links (src/torrent/magnet_link.rs)

The URI is modelled as its byte sequence; the inputs settled here are ASCII,
where Rust's char-based splitting and byte-based slicing coincide. -/

def magnetPre : List Nat := [109, 97, 103, 110, 101, 116, 58, 63]

def urnBtih : List Nat := [117, 114, 110, 58, 98, 116, 105, 104, 58]

def xtKeyB : List Nat := [120, 116]

def trKeyB : List Nat := [116, 114]

def dnKeyB : List Nat := [100, 110]

/-- The 20 bytes of magnet:?xt=urn:btih: . -/
def magnetBtihPre : List Nat :=
  [109, 97, 103, 110, 101, 116, 58, 63, 120, 116, 61, 117, 114, 110, 58, 98, 116, 105, 104, 58]

/-- str::split on a delimiter: at least one (possibly empty) segment. -/
def splitOnByte (delim : Nat) : List Nat → List (List Nat)
  | [] => [[]]
  | b :: rest =>
    if b = delim then [] :: splitOnByte delim rest
    else
      match splitOnByte delim rest with
      | seg :: segs => (b :: seg) :: segs
      | [] => [[b]]

/-- The key and value of one query parameter: the first two segments of the
split on the equals sign (missing value defaults to empty, a third segment
is ignored), as in parts.next() called twice. -/
def paramKeyValue (param : List Nat) : List Nat × List Nat :=
  match splitOnByte 61 param with
  | [] => ([], [])
  | [k] => (k, [])
  | k :: v :: _ => (k, v)

/-- Value of an ASCII hex digit, as accepted by from_str_radix(_, 16). -/
def hexDigit (c : Nat) : Option Nat :=
  if 48 ≤ c ∧ c ≤ 57 then some (c - 48)
  else if 97 ≤ c ∧ c ≤ 102 then some (c - 87)
  else if 65 ≤ c ∧ c ≤ 70 then some (c - 55)
  else none

/-- u8::from_str_radix on a two-character slice in base 16: an optional
leading plus sign is accepted (then a single digit remains), otherwise both
characters must be hex digits. -/
def u8FromHex2 (c1 c2 : Nat) : Option Nat :=
  if c1 = 43 then hexDigit c2
  else
    match hexDigit c1, hexDigit c2 with
    | some h1, some h2 => some (h1 * 16 + h2)
    | _, _ => none

/-- Outcome of decoding the 40-hex info hash. -/
inductive HashOut where
  | ok (bytes : List Nat)
  | err
  | panic
  deriving Repr, DecidableEq

/-- The loop for i in 0..20 over hash[i*2..i*2+2]: the byte-range slice
panics when the string is too short, a failed from_str_radix propagates as
an error, and bytes beyond index 39 are never examined. -/
def btihLoop (hash : List Nat) (i : Nat) : Nat → List Nat → HashOut
  | 0, acc => .ok acc.reverse
  | n + 1, acc =>
    if hash.length < 2 * i + 2 then .panic
    else
      match hash.drop (2 * i) with
      | c1 :: c2 :: _ =>
        match u8FromHex2 c1 c2 with
        | some b => btihLoop hash (i + 1) n (b :: acc)
        | none => .err
      | _ => .panic

/-- Decode the 20 info-hash bytes from the characters after urn:btih: . -/
def parseBtih (hash : List Nat) : HashOut := btihLoop hash 0 20 []

/-- strip_prefix urn:btih: . -/
def stripUrnBtih (value : List Nat) : Option (List Nat) :=
  if value.take 9 = urnBtih then some (value.drop 9) else none

/-- url_decode: percent followed by two hex characters becomes one byte
(pushed as a char, so the output is a codepoint sequence); a truncated or
non-hex escape is an error. -/
def urlDecode : List Nat → Option (List Nat)
  | [] => some []
  | c :: rest =>
    if c = 37 then
      match rest with
      | c1 :: c2 :: rest' => (u8FromHex2 c1 c2).bind fun b => (urlDecode rest').map (b :: ·)
      | _ => none
    else (urlDecode rest).map (c :: ·)

/-- A parsed magnet link. -/
structure MagnetLink where
  info_hash : List Nat
  name : Option (List Nat)
  tracker : Option (List Nat)
  deriving Repr, DecidableEq

/-- Outcome of MagnetLink::parse; url_decode failures (truncated escape and
bad hex) are collapsed into the percent-encoding error. -/
inductive MagnetOut where
  | ok (m : MagnetLink)
  | errNotMagnet
  | errMissingInfoHash
  | errBadHex
  | errBadPercent
  | panic
  deriving Repr, DecidableEq

/-- The parameter loop of MagnetLink::parse: xt values with the urn:btih:
initial segment set the info hash (a later xt overwrites an earlier one),
other xt values are ignored, tr and dn are percent-decoded, unknown keys
skipped; at the end a missing info hash is an error. -/
def magnetLoop : List (List Nat) → Option (List Nat) → Option (List Nat) →
    Option (List Nat) → MagnetOut
  | [], ih, tr, dn =>
    match ih with
    | some h => .ok ⟨h, dn, tr⟩
    | none => .errMissingInfoHash
  | param :: rest, ih, tr, dn =>
    let kv := paramKeyValue param
    if kv.1 = xtKeyB then
      match stripUrnBtih kv.2 with
      | some hash =>
        match parseBtih hash with
        | .ok arr => magnetLoop rest (some arr) tr dn
        | .err => .errBadHex
        | .panic => .panic
      | none => magnetLoop rest ih tr dn
    else if kv.1 = trKeyB then
      match urlDecode kv.2 with
      | some v => magnetLoop rest ih (some v) dn
      | none => .errBadPercent
    else if kv.1 = dnKeyB then
      match urlDecode kv.2 with
      | some v => magnetLoop rest ih tr (some v)
      | none => .errBadPercent
    else magnetLoop rest ih tr dn

/-- MagnetLink::parse: require the magnet:? scheme, split the query on
ampersands and process the parameters in order. -/
def magnetParse (s : List Nat) : MagnetOut :=
  if s.take 8 = magnetPre then
    magnetLoop (splitOnByte 38 (s.drop 8)) none none none
  else .errNotMagnet

/-! ### Splitting and slicing lemmas for the magnet parse -/

theorem splitOnByte_not_mem (delim : Nat) :
    ∀ s : List Nat, delim ∉ s → splitOnByte delim s = [s]
  | [], _ => rfl
  | b :: rest, h => by
    have hb : b ≠ delim := fun hc => h (hc ▸ List.mem_cons_self b rest)
    have hr := splitOnByte_not_mem delim rest (fun hc => h (List.mem_cons_of_mem b hc))
    unfold splitOnByte
    rw [if_neg hb, hr]

theorem splitOnByte_append (delim : Nat) :
    ∀ (xs ys : List Nat), delim ∉ xs →
      splitOnByte delim (xs ++ delim :: ys) = xs :: splitOnByte delim ys
  | [], ys, _ => by
    show splitOnByte delim (delim :: ys) = [] :: splitOnByte delim ys
    conv_lhs => rw [splitOnByte]
    rw [if_pos rfl]
  | x :: xs', ys, h => by
    have hx : x ≠ delim := fun hc => h (hc ▸ List.mem_cons_self x xs')
    have hr := splitOnByte_append delim xs' ys (fun hc => h (List.mem_cons_of_mem x hc))
    show splitOnByte delim (x :: (xs' ++ delim :: ys)) = (x :: xs') :: splitOnByte delim ys
    conv_lhs => rw [splitOnByte]
    rw [if_neg hx, hr]

theorem drop_append_of_le (n : Nat) :
    ∀ (xs ys : List Nat), n ≤ xs.length → (xs ++ ys).drop n = xs.drop n ++ ys := by
  induction n with
  | zero => intro xs ys _; rfl
  | succ m ih =>
    intro xs ys h
    cases xs with
    | nil => simp at h
    | cons x xs' =>
      show (xs' ++ ys).drop m = xs'.drop m ++ ys
      exact ih xs' ys (by simpa using h)

/-- The route from magnetParse to the btih decode for a single xt parameter:
with no ampersand or equals sign in the suffix, the outcome of parsing
magnet:?xt=urn:btih: followed by the suffix is the mapped outcome of the
40-hex decode of the suffix. -/
theorem magnetParse_btih_route (suffix : List Nat)
    (h38 : 38 ∉ suffix) (h61 : 61 ∉ suffix) :
    magnetParse (magnetBtihPre ++ suffix) =
      (match parseBtih suffix with
       | .ok h => .ok ⟨h, none, none⟩
       | .err => .errBadHex
       | .panic => .panic) := by
  have htake : (magnetBtihPre ++ suffix).take 8 = magnetPre := rfl
  have hdrop : (magnetBtihPre ++ suffix).drop 8 =
      [120, 116, 61, 117, 114, 110, 58, 98, 116, 105, 104, 58] ++ suffix := rfl
  have hsplit38 : splitOnByte 38 ([120, 116, 61, 117, 114, 110, 58, 98, 116, 105, 104, 58]
      ++ suffix) = [[120, 116, 61, 117, 114, 110, 58, 98, 116, 105, 104, 58] ++ suffix] := by
    apply splitOnByte_not_mem
    intro hc
    rcases List.mem_append.mp hc with h | h
    · simp at h
    · exact h38 h
  have hsplit61 : splitOnByte 61 ([120, 116, 61, 117, 114, 110, 58, 98, 116, 105, 104, 58]
      ++ suffix) = [120, 116] :: splitOnByte 61 (urnBtih ++ suffix) := by
    have h1 : ([120, 116, 61, 117, 114, 110, 58, 98, 116, 105, 104, 58] : List Nat)
        ++ suffix = [120, 116] ++ 61 :: (urnBtih ++ suffix) := by
      simp [urnBtih]
    rw [h1]
    apply splitOnByte_append
    decide
  have hval61 : splitOnByte 61 (urnBtih ++ suffix) = [urnBtih ++ suffix] := by
    apply splitOnByte_not_mem
    intro hc
    rcases List.mem_append.mp hc with h | h
    · simp [urnBtih] at h
    · exact h61 h
  have hkv : paramKeyValue ([120, 116, 61, 117, 114, 110, 58, 98, 116, 105, 104, 58]
      ++ suffix) = ([120, 116], urnBtih ++ suffix) := by
    unfold paramKeyValue
    rw [hsplit61, hval61]
  have hstrip : stripUrnBtih (urnBtih ++ suffix) = some suffix := by
    unfold stripUrnBtih
    have h9 : (urnBtih ++ suffix).take 9 = urnBtih := rfl
    have h9d : (urnBtih ++ suffix).drop 9 = suffix := rfl
    rw [h9, if_pos rfl, h9d]
  unfold magnetParse
  rw [if_pos htake, hdrop, hsplit38]
  simp only [List.cons_append, List.nil_append] at hkv
  rcases hpb : parseBtih suffix with h | _ | _ <;>
    simp [magnetLoop, hkv, hstrip, hpb, xtKeyB]

/-- Only the first 40 characters after urn:btih: are ever examined: the btih
decode is unchanged by any bytes past index 39. -/
theorem btihLoop_append (hash extra : List Nat) :
    ∀ (n i : Nat) (acc : List Nat), 2 * (i + n) ≤ hash.length →
      btihLoop (hash ++ extra) i n acc = btihLoop hash i n acc
  | 0, _, _, _ => rfl
  | n + 1, i, acc, hle => by
    have hguard : ¬ (hash ++ extra).length < 2 * i + 2 := by simp; omega
    have hguard2 : ¬ hash.length < 2 * i + 2 := by omega
    have hdropapp : (hash ++ extra).drop (2 * i) = hash.drop (2 * i) ++ extra :=
      drop_append_of_le _ _ _ (by omega)
    have hlen : 2 ≤ (hash.drop (2 * i)).length := by simp; omega
    rcases hd : hash.drop (2 * i) with _ | ⟨c1, t⟩
    · rw [hd] at hlen; simp at hlen
    · rcases t with _ | ⟨c2, t'⟩
      · rw [hd] at hlen; simp at hlen
      · unfold btihLoop
        rw [if_neg hguard, if_neg hguard2, hdropapp, hd]
        simp only [List.cons_append]
        rcases hu : u8FromHex2 c1 c2 with _ | b <;> simp only [hu]
        exact btihLoop_append hash extra n (i + 1) (b :: acc) (by omega)

/-- A hash shorter than 40 all-hex characters runs the slice out of bounds:
the loop panics instead of reporting an error. -/
theorem btihLoop_short_panic (hash : List Nat) (hshort : hash.length < 40)
    (hhex : ∀ c ∈ hash, (hexDigit c).isSome) :
    ∀ (n i : Nat) (acc : List Nat), i + n = 20 → 2 * i ≤ hash.length →
      btihLoop hash i n acc = .panic
  | 0, i, acc, htot, h2i => by omega
  | n + 1, i, acc, htot, h2i => by
    unfold btihLoop
    by_cases hguard : hash.length < 2 * i + 2
    · rw [if_pos hguard]
    · rw [if_neg hguard]
      rcases hd : hash.drop (2 * i) with _ | ⟨c1, t⟩
      · rfl
      · rcases t with _ | ⟨c2, t'⟩
        · rfl
        · have hc1 : c1 ∈ hash := by
            have : c1 ∈ hash.drop (2 * i) := by rw [hd]; exact List.mem_cons_self _ _
            exact List.mem_of_mem_drop this
          have hc2 : c2 ∈ hash := by
            have : c2 ∈ hash.drop (2 * i) := by
              rw [hd]; exact List.mem_cons_of_mem _ (List.mem_cons_self _ _)
            exact List.mem_of_mem_drop this
          have h1 := hhex c1 hc1
          have h2 := hhex c2 hc2
          have hc143 : c1 ≠ 43 := by
            intro hc
            rw [hc] at h1
            simp [hexDigit] at h1
          obtain ⟨v1, hv1⟩ := Option.isSome_iff_exists.mp h1
          obtain ⟨v2, hv2⟩ := Option.isSome_iff_exists.mp h2
          have hu : u8FromHex2 c1 c2 = some (v1 * 16 + v2) := by
            unfold u8FromHex2
            rw [if_neg hc143, hv1, hv2]
          simp only [hu]
          exact btihLoop_short_panic hash hshort hhex n (i + 1) _ (by omega) (by omega)

/-! ## Claim C8: magnet xt strictness -/

/-- Claim C8, counterexample.  An xt value of urn:btih: followed by 41 hex
characters is accepted (the 41st character is never examined), and one
followed by 39 hex characters panics on the str slice hash[78..80] instead
of returning an error, so parse neither rejects longer suffixes nor returns
a BadInfoHash error for shorter ones. -/
theorem C8_counterexample :
    magnetParse (magnetBtihPre ++ List.replicate 41 97) =
      .ok ⟨List.replicate 20 170, none, none⟩ ∧
    magnetParse (magnetBtihPre ++ List.replicate 39 97) = .panic := by
  constructor <;> decide

/-- Claim C8, amended.  For a lone xt parameter, parse routes the characters
after urn:btih: through the 40-hex decode, whose outcome is mapped to
success, a hex error, or a panic; the decode examines only the first 40
characters, so longer suffixes are accepted with the excess ignored; and
when fewer than 40 (all-hex) characters are present the byte-range slice
panics rather than returning an error. -/
theorem C8_xt_forty_window (suffix hash extra : List Nat)
    (h38 : 38 ∉ suffix) (h61 : 61 ∉ suffix) :
    magnetParse (magnetBtihPre ++ suffix) =
      (match parseBtih suffix with
       | .ok h => .ok ⟨h, none, none⟩
       | .err => .errBadHex
       | .panic => .panic) ∧
    (40 ≤ hash.length → parseBtih (hash ++ extra) = parseBtih hash) ∧
    (hash.length < 40 → (∀ c ∈ hash, (hexDigit c).isSome) → parseBtih hash = .panic) := by
  refine ⟨magnetParse_btih_route suffix h38 h61, ?_, ?_⟩
  · intro hlen
    exact btihLoop_append hash extra 20 0 [] (by omega)
  · intro hlen hhex
    exact btihLoop_short_panic hash hlen hhex 20 0 [] rfl (by omega)

/-- Claim C8, witness: the amended statement evaluated on a 41-character and
a 39-character hex suffix. -/
theorem C8_witness :
    magnetParse (magnetBtihPre ++ List.replicate 41 97) =
      .ok ⟨List.replicate 20 170, none, none⟩ ∧
    parseBtih (List.replicate 39 97) = .panic := by
  have h := C8_xt_forty_window (List.replicate 41 97) (List.replicate 39 97) [97]
    (by decide) (by decide)
  constructor
  · rw [h.1]
    decide
  · exact h.2.2 (by decide) (by decide)

/-! ## Download coordinator (src/torrent/download.rs)

The model is DownloadManager::download restricted to a single peer endpoint,
where execution is sequential: the one worker runs to completion and then
sends its single completion message.  Network effects are oracles: connects
lists the success of each timed connect attempt, downloads lists the outcome
of each timed download_piece call (none models an error or a timeout), and
hashOk abstracts the comparison of the piece's SHA-1 (computed by the
external sha1 crate) against the expected hash slice. -/

structure PieceWork where
  index : Nat
  length : Nat
  retries : Nat
  deriving Repr, DecidableEq

structure DownloadConfig where
  peer_retries : Nat
  max_pending : Nat
  piece_retries : Nat
  deriving Repr, DecidableEq

/-- The defaults: peer_retries 3, max_pending 5, piece_retries 3 (the 10 s
peer_timeout lives inside the download oracle). -/
def defaultDownloadConfig : DownloadConfig := ⟨3, 5, 3⟩

/-- Worker-visible shared state plus the remaining download outcomes. -/
structure DlState where
  queue : List PieceWork
  completed : List (Option (List Nat))
  downloads : List (Option (List Nat))
  deriving Repr, DecidableEq

/-- Index of the first queue entry with minimal retries, as
iter().enumerate().min_by_key(|(_, work)| work.retries). -/
def minRetriesAux : List PieceWork → Nat → Nat → Nat → Nat
  | [], _, best, _ => best
  | w :: rest, i, best, bestRet =>
    if w.retries < bestRet then minRetriesAux rest (i + 1) i w.retries
    else minRetriesAux rest (i + 1) best bestRet

def minRetriesIdx : List PieceWork → Option Nat
  | [] => none
  | w :: rest => some (minRetriesAux rest 1 0 w.retries)

/-- Vec::remove at an in-range position. -/
def removeAt : List PieceWork → Nat → Option (PieceWork × List PieceWork)
  | [], _ => none
  | w :: rest, 0 => some (w, rest)
  | w :: rest, n + 1 => (removeAt rest n).map fun p => (p.1, w :: p.2)

/-- The batch selection loop: up to max_pending items, each time removing
the entry with the fewest retries. -/
def selectBatch : Nat → List PieceWork → List PieceWork × List PieceWork
  | 0, q => ([], q)
  | n + 1, q =>
    match minRetriesIdx q with
    | none => ([], q)
    | some pos =>
      match removeAt q pos with
      | none => ([], q)
      | some (w, q') =>
        let p := selectBatch n q'
        (w :: p.1, p.2)

/-- One download attempt for one piece (download.rs lines 136 to 183).  On a
verified piece the slot is written and consecutive_failures resets; a hash
mismatch falls through to the requeue code without touching
consecutive_failures; a download error or timeout increments it.  The failed
piece gets retries + 1 and is pushed back only while under piece_retries. -/
def processPiece (hashOk : Nat → List Nat → Bool) (pieceRetries : Nat)
    (w : PieceWork) (st : DlState) (cf : Nat) : DlState × Nat :=
  let requeue : DlState → DlState := fun s =>
    if w.retries + 1 < pieceRetries then
      { s with queue := s.queue ++ [⟨w.index, w.length, w.retries + 1⟩] }
    else s
  match st.downloads with
  | [] => (requeue st, cf + 1)
  | outcome :: rest =>
    let st' : DlState := { st with downloads := rest }
    match outcome with
    | some data =>
      if hashOk w.index data then
        ({ st' with completed := st'.completed.set w.index (some data) }, 0)
      else (requeue st', cf)
    | none => (requeue st', cf + 1)

def processBatch (hashOk : Nat → List Nat → Bool) (pieceRetries : Nat) :
    List PieceWork → DlState → Nat → DlState × Nat
  | [], st, cf => (st, cf)
  | w :: ws, st, cf =>
    let p := processPiece hashOk pieceRetries w st cf
    processBatch hashOk pieceRetries ws p.1 p.2

/-- Exit reason of the inner work loop. -/
inductive InnerExit where
  | drained
  | dropped
  | outOfFuel
  deriving Repr, DecidableEq

/-- The inner work loop (download.rs lines 106 to 185): stop and drop the
connection after three consecutive failures, break out entirely when the
queue drains, otherwise take a batch and process it. -/
def workerInner (hashOk : Nat → List Nat → Bool) (cfg : DownloadConfig) :
    Nat → DlState → Nat → DlState × InnerExit
  | 0, st, _ => (st, .outOfFuel)
  | fuel + 1, st, cf =>
    if 3 ≤ cf then (st, .dropped)
    else if st.queue.isEmpty then (st, .drained)
    else
      let b := selectBatch cfg.max_pending st.queue
      if b.1.isEmpty then ({ st with queue := b.2 }, .drained)
      else
        let p := processBatch hashOk cfg.piece_retries b.1 { st with queue := b.2 } cf
        workerInner hashOk cfg fuel p.1 p.2

/-- The connect retry loop (download.rs lines 101 to 189): up to peer_retries
attempts; a failed connect just moves to the next attempt, a successful one
runs the inner loop, and only a drained queue leaves the loop early. -/
def workerRetry (hashOk : Nat → List Nat → Bool) (cfg : DownloadConfig)
    (fuelInner : Nat) : Nat → List Bool → DlState → DlState
  | 0, _, st => st
  | n + 1, connects, st =>
    match connects with
    | [] => workerRetry hashOk cfg fuelInner n [] st
    | c :: cs =>
      if c then
        let p := workerInner hashOk cfg fuelInner st 0
        match p.2 with
        | .drained => p.1
        | _ => workerRetry hashOk cfg fuelInner n cs p.1
      else workerRetry hashOk cfg fuelInner n cs st

/-- Number of filled slots, as pieces.iter().filter(is_some).count(). -/
def countSome (l : List (Option (List Nat))) : Nat := l.countP Option.isSome

/-- Overwrite file bytes at an offset (copy_from_slice; the source panics
when the ranges disagree, a path not exercised by the claims settled here). -/
def writeAt (file : List Nat) (offset : Nat) (data : List Nat) : List Nat :=
  file.take offset ++ data ++ file.drop (offset + data.length)

/-- The assembly loop (download.rs lines 258 to 265): walk the slots in
index order, copying each present piece at the running offset, which
advances only over present pieces. -/
def assembleLoop (t : TorrentInfo) :
    List (Option (List Nat)) → Nat → Nat → List Nat → List Nat
  | [], _, _, file => file
  | p :: rest, i, offset, file =>
    match p with
    | some data =>
      assembleLoop t rest (i + 1) (offset + t.piece_size i)
        (writeAt file offset (data.take (t.piece_size i)))
    | none => assembleLoop t rest (i + 1) offset file

def assembleFile (t : TorrentInfo) (completed : List (Option (List Nat))) : List Nat :=
  assembleLoop t completed 0 0 (List.replicate t.length 0)

/-- The piece-work queue built by DownloadManager::new. -/
def initQueue (t : TorrentInfo) : List PieceWork :=
  (List.range t.total_pieces).map fun i => ⟨i, t.piece_size i, 0⟩

/-- Result of the coordinator.  The wait loop (download.rs lines 243 to 252)
re-counts the filled slots after each worker message; with the single worker
done it has exactly one message to consume, and the manager's own sender
clone stays alive for the whole call, so rx.recv() can never return None:
when slots are still empty after the message, the loop blocks forever, which
the model records as the blocked outcome.  There is no error return for an
exhausted queue. -/
inductive DownloadOutcome where
  | ok (data : List Nat)
  | blocked
  deriving Repr, DecidableEq

/-- DownloadManager::download for a single peer: run the worker to
completion, then either every slot is filled and the assembled bytes are
returned, or the wait loop blocks forever. -/
def downloadModel (t : TorrentInfo) (hashOk : Nat → List Nat → Bool)
    (cfg : DownloadConfig) (connects : List Bool)
    (downloads : List (Option (List Nat))) (fuelInner : Nat) : DownloadOutcome :=
  let stF := workerRetry hashOk cfg fuelInner cfg.peer_retries connects
    ⟨initQueue t, List.replicate t.total_pieces none, downloads⟩
  if countSome stF.completed < t.total_pieces then .blocked
  else .ok (assembleFile t stF.completed)

/-! ## Claim C4: download exhaustion -/

/-- Claim C4, counterexample.  A one-piece torrent downloaded from a peer
whose every download attempt fails drains the queue with the single slot
still empty, yet the coordinator does not return a DownloadExhausted
failure — no such error exists in the code; its wait loop blocks forever
(the manager keeps a live sender, so the channel never closes) and no output
is produced. -/
theorem C4_counterexample :
    (workerRetry (fun _ _ => false) defaultDownloadConfig 100
      defaultDownloadConfig.peer_retries (List.replicate 10 true)
      ⟨initQueue ⟨[97], 2, 2, List.replicate 20 0⟩,
        List.replicate 1 none, List.replicate 10 none⟩).queue = [] ∧
    countSome (workerRetry (fun _ _ => false) defaultDownloadConfig 100
      defaultDownloadConfig.peer_retries (List.replicate 10 true)
      ⟨initQueue ⟨[97], 2, 2, List.replicate 20 0⟩,
        List.replicate 1 none, List.replicate 10 none⟩).completed = 0 ∧
    downloadModel ⟨[97], 2, 2, List.replicate 20 0⟩ (fun _ _ => false)
      defaultDownloadConfig (List.replicate 10 true) (List.replicate 10 none) 100 =
      .blocked := by
  refine ⟨?_, ?_, ?_⟩ <;> decide

/-- Claim C4, amended.  When the queue drains while at least one slot is
still empty, the coordinator does not fail with DownloadExhausted (no such
error exists): its wait loop blocks forever, so the download neither returns
an error nor an assembled byte sequence. -/
theorem C4_exhaustion_blocks (t : TorrentInfo) (hashOk : Nat → List Nat → Bool)
    (cfg : DownloadConfig) (connects : List Bool)
    (downloads : List (Option (List Nat))) (fuelInner : Nat)
    (_hdrain : (workerRetry hashOk cfg fuelInner cfg.peer_retries connects
      ⟨initQueue t, List.replicate t.total_pieces none, downloads⟩).queue = [])
    (hempty : countSome (workerRetry hashOk cfg fuelInner cfg.peer_retries connects
      ⟨initQueue t, List.replicate t.total_pieces none, downloads⟩).completed <
        t.total_pieces) :
    downloadModel t hashOk cfg connects downloads fuelInner = .blocked := by
  unfold downloadModel
  simp only [if_pos hempty]

/-- Claim C4, witness: the amended statement applied to the one-piece
always-failing scenario of the counterexample. -/
theorem C4_witness :
    downloadModel ⟨[97], 2, 2, List.replicate 20 0⟩ (fun _ _ => false)
      defaultDownloadConfig (List.replicate 10 true) (List.replicate 10 none) 100 =
      .blocked :=
  C4_exhaustion_blocks ⟨[97], 2, 2, List.replicate 20 0⟩ (fun _ _ => false)
    defaultDownloadConfig (List.replicate 10 true) (List.replicate 10 none) 100
    (by decide) (by decide)

end BitTorrent
